import Mathlib

/-!
Verification of the IoT data-space MCP server core (`mcp_server.py`):
the filter normalizer and keyword-to-type resolver in `_read` / `_get_types`,
and the selector checks of the `read` tool.  Python strings are modelled as
`String` (lists of characters); `str.strip()` is modelled over the ASCII
whitespace characters; `float(...)` parsing is modelled by an explicit
character-level parser following the CPython grammar (sign, digit parts with
underscores, optional fraction and exponent, inf/nan).  The type catalog
(`data-space.json`, loaded at startup) is passed explicitly as a value.
The outbound HTTP request of `_read` is modelled by the parameter set it
would send: a `Params` value (an `Except.ok` result means exactly one store
request is dispatched with those parameters; an `Except.error` result means
the error dict is returned and no store call is made).
-/

namespace MCPServer

/-- ASCII whitespace stripped by Python `str.strip()`. -/
def isPySpace (c : Char) : Bool :=
  c == ' ' || c == '\t' || c == '\n' || c == '\r' || c == '\x0b' || c == '\x0c'

/-- Model of Python `str.strip()` on a character list. -/
def pyStripL (l : List Char) : List Char :=
  ((l.dropWhile isPySpace).reverse.dropWhile isPySpace).reverse

/-- Model of Python `str.strip()`. -/
def pyStrip (s : String) : String :=
  ⟨pyStripL s.data⟩

/-- Model of Python `str.lower()` (ASCII). -/
def lowerStr (s : String) : String :=
  ⟨s.data.map Char.toLower⟩

/-- Split a character list at the first occurrence of `sep`
(the behaviour of Python `s.split(sep, 1)` when `sep` occurs in `s`);
`none` when `sep` does not occur (Python `sep in s` is false). -/
def splitFirst (sep : List Char) : List Char → Option (List Char × List Char)
  | [] => if sep.isPrefixOf ([] : List Char) then some ([], ([] : List Char).drop sep.length) else none
  | c :: rest =>
    if sep.isPrefixOf (c :: rest) then some ([], (c :: rest).drop sep.length)
    else
      match splitFirst sep rest with
      | some (pre, post) => some (c :: pre, post)
      | none => none

/-- Python `sub in s` substring test. -/
def containsSub (sub s : String) : Bool :=
  (splitFirst sub.data s.data).isSome

/-- Fuel-driven worker for `pySplitOn`. -/
def pySplitF (sep : List Char) : Nat → List Char → List (List Char)
  | 0, l => [l]
  | n + 1, l =>
    match splitFirst sep l with
    | some (pre, post) => pre :: pySplitF sep n post
    | none => [l]

/-- Model of Python `s.split(sep)` for a non-empty separator. -/
def pySplitOn (sep s : String) : List String :=
  (pySplitF sep.data (s.data.length + 1) s.data).map (fun l => ⟨l⟩)

/-! ### Model of `is_number` (Python `float(value)` succeeding)

CPython accepts, after stripping whitespace: an optional sign, then either a
case-insensitive `inf`/`infinity`/`nan`, or a number `digitpart [. [digitpart]]
[exponent]` / `. digitpart [exponent]`, where a digit part is digits with
single underscores between digits. -/

/-- Consume the remainder of a digit part: digits, with single underscores
allowed only between digits. -/
def digitTail : List Char → List Char
  | [] => []
  | c :: rest =>
    if c.isDigit then digitTail rest
    else if c = '_' then
      match rest with
      | d :: rest2 => if d.isDigit then digitTail rest2 else c :: rest
      | [] => c :: rest
    else c :: rest

/-- Consume a digit part (at least one leading digit); `none` if absent. -/
def parseDigitpart (l : List Char) : Option (List Char) :=
  match l with
  | c :: rest => if c.isDigit then some (digitTail rest) else none
  | [] => none

/-- After the mantissa: end of string, or an exponent `e`/`E`, optional sign,
digit part consuming the rest. -/
def afterNumber : List Char → Bool
  | [] => true
  | c :: rest =>
    if c = 'e' ∨ c = 'E' then
      match rest with
      | s :: r =>
        if s = '+' ∨ s = '-' then
          match parseDigitpart r with
          | some [] => true
          | _ => false
        else
          match parseDigitpart (s :: r) with
          | some [] => true
          | _ => false
      | [] => false
    else false

/-- Consume the mantissa: `digitpart [. [digitpart]]` or `. digitpart`. -/
def parseMantissa (l : List Char) : Option (List Char) :=
  match parseDigitpart l with
  | some rest =>
    match rest with
    | '.' :: rest2 =>
      match parseDigitpart rest2 with
      | some rest3 => some rest3
      | none => some rest2
    | _ => some rest
  | none =>
    match l with
    | '.' :: rest2 => parseDigitpart rest2
    | _ => none

/-- Case-insensitive `inf` / `infinity` / `nan`. -/
def isInfNan (l : List Char) : Bool :=
  let w := l.map Char.toLower
  w = ['i', 'n', 'f'] || w = ['i', 'n', 'f', 'i', 'n', 'i', 't', 'y'] || w = ['n', 'a', 'n']

/-- Remove an optional leading sign. -/
def dropSign : List Char → List Char
  | [] => []
  | c :: rest => if c = '+' ∨ c = '-' then rest else c :: rest

/-- After stripping and sign removal: a number (when the head is a digit or
a dot) or a case-insensitive inf/nan word. -/
def pyFloatCore : List Char → Bool
  | [] => false
  | c :: rest =>
    if c.isDigit || c = '.' then
      match parseMantissa (c :: rest) with
      | some r => afterNumber r
      | none => false
    else isInfNan (c :: rest)

/-- Whether CPython `float()` accepts the character list. -/
def pyFloatValid (l0 : List Char) : Bool :=
  pyFloatCore (dropSign (pyStripL l0))

/-- `is_number` from `_read`: `try: float(value); return True except ValueError: return False`. -/
def is_number (value : String) : Bool :=
  pyFloatValid value.data

/-- The single-quote character (written by code point to keep source plain). -/
def singleQuote : Char := Char.ofNat 39

/-- Quote characters recognised by `is_quoted`. -/
def isQuoteChar (c : Char) : Bool :=
  c == singleQuote || c == '"'

/-- `is_quoted` from `_read`:
`len(value) >= 2 and value[0] == value[-1] and value[0] in (squote, dquote)`. -/
def is_quoted (value : String) : Bool :=
  match value.data with
  | [] => false
  | c :: cs =>
    match cs.getLast? with
    | none => false
    | some d => (c == d) && isQuoteChar c

/-- The numeric regex `/^-?\d+(\.\d+)?$/` quoted by the specification
(`\d` as ASCII digits), core part `\d+(\.\d+)?` after the optional sign. -/
def regexCore : List Char → Bool
  | [] => false
  | c :: rest =>
    c.isDigit &&
      (match rest.dropWhile Char.isDigit with
       | [] => true
       | r0 :: rs =>
         (r0 == '.') &&
           (match rs with
            | [] => false
            | d :: r3 => d.isDigit && (r3.dropWhile Char.isDigit).isEmpty))

/-- The numeric regex `/^-?\d+(\.\d+)?$/` quoted by the specification. -/
def regexNumeric (s : String) : Bool :=
  match s.data with
  | [] => false
  | c :: rest => if c = '-' then regexCore rest else regexCore (c :: rest)

/-! ### The filter normalizer of `_read` -/

/-- The fixed operator priority list of `_read`. -/
def supported_operators : List String :=
  ["==", "!=", "<=", ">=", "<", ">", "contains"]

/-- Value normalization in `_read`:
`if not is_number(value) and not is_quoted(value): value = '"' + value + '"'`. -/
def normalizeValue (v : String) : String :=
  if is_number v || is_quoted v then v else "\"" ++ v ++ "\""

/-- The operator scan of `_read`: the first operator of
`supported_operators` occurring in the filter string, with the string split
at that operator's first occurrence; attribute and raw value are stripped. -/
def parseFilter (filter_str : String) : Option (String × String × String) :=
  match supported_operators.find? (fun op => (splitFirst op.data filter_str.data).isSome) with
  | some op =>
    match splitFirst op.data filter_str.data with
    | some (pre, post) => some (⟨pyStripL pre⟩, op, ⟨pyStripL post⟩)
    | none => none
  | none => none

/-- Structured errors returned by `_read` / `read` as `{"error": ...}` dicts;
each constructor carries the data interpolated into the message. -/
inductive ReadError : Type
  | invalidFilter (filter_str : String)
  | conflictingSelectors
  | unknownType (type_id : String)
  deriving DecidableEq, Repr

/-- The normalization loop of `_read` over the filter list: returns the
normalized clauses, or the error for the first filter without a supported
operator. -/
def normalizeFiltersAux : List String → Except ReadError (List String)
  | [] => Except.ok []
  | fs :: rest =>
    match parseFilter fs with
    | none => Except.error (ReadError.invalidFilter fs)
    | some (attr, op, raw) =>
      match normalizeFiltersAux rest with
      | Except.ok l => Except.ok ((attr ++ op ++ normalizeValue raw) :: l)
      | Except.error e => Except.error e

/-- Python `";".join(...)`. -/
def joinSemi : List String → String
  | [] => ""
  | [c] => c
  | c :: rest => c ++ ";" ++ joinSemi rest

/-- The filter normalizer of `_read` (§4.3 `normalize`): normalize every
clause and join them with `";"`. -/
def normalize (filters : List String) : Except ReadError String :=
  match normalizeFiltersAux filters with
  | Except.ok l => Except.ok (joinSemi l)
  | Except.error e => Except.error e

/-! ### The query dispatcher -/

/-- The parameter dict sent to the entity store; a `none` field means the
key is absent from the dict. -/
structure Params : Type where
  type : Option String
  id : Option String
  q : Option String
  attrs : Option String
  deriving DecidableEq, Repr

/-- `x is not None and str(x).strip() != ""`. -/
def nonBlank : Option String → Bool
  | none => false
  | some s => pyStrip s != ""

/-- The parameter-set construction at the end of `_read`: each key is
included only when the corresponding value is non-None and non-blank. -/
def mkParams (type_id object_id query attributes : Option String) : Params :=
  { type := if nonBlank type_id then type_id else none
  , id := if nonBlank object_id then object_id else none
  , q := if nonBlank query then query else none
  , attrs := if nonBlank attributes then attributes else none }

/-- `_read`: normalize the filters (when the list is truthy) and build the
parameter set for the single store request; an `Except.error` is the error
dict returned before any store call. -/
def _read (type_id object_id attributes : Option String)
    (filters : Option (List String)) : Except ReadError Params :=
  match filters with
  | none => Except.ok (mkParams type_id object_id none attributes)
  | some [] => Except.ok (mkParams type_id object_id none attributes)
  | some (fs :: rest) =>
    match normalize (fs :: rest) with
    | Except.error e => Except.error e
    | Except.ok q => Except.ok (mkParams type_id object_id (some q) attributes)

/-! ### The type catalog and `_get_types` -/

/-- An attribute of a catalog type: a name and a free-text description. -/
structure AttrData : Type where
  name : String
  description : String
  deriving DecidableEq, Repr

/-- The data of one catalog type entry. -/
structure TypeData : Type where
  description : String
  attributes : List AttrData
  deriving DecidableEq, Repr

/-- The type catalog `data_space["data_space"]["types"]`: a list of JSON
objects, each mapping type names to type data (iterated in order). -/
structure DataSpace : Type where
  types : List (List (String × TypeData))
  deriving DecidableEq, Repr

/-- The keyword list of `_get_types`:
`[a.strip().lower() for a in keywords.split(",") if a.strip()]`. -/
def tokensOf (keywords : String) : List String :=
  (((pySplitOn "," keywords).map pyStrip).filter (fun a => a != "")).map lowerStr

/-- Whether a type matches: its lower-cased description, or any attribute's
lower-cased description, contains some token as a substring. -/
def matchesType (tokens : List String) (td : TypeData) : Bool :=
  tokens.any (fun t => containsSub t (lowerStr td.description)) ||
    td.attributes.any (fun a => tokens.any (fun t => containsSub t (lowerStr a.description)))

/-- The scan of `_get_types` over the (flattened) catalog entries, with the
`seen` set of already-emitted type names. -/
def getTypesFlat (tokens : List String) :
    List (String × TypeData) → List String → List (String × TypeData)
  | [], _ => []
  | (name, data) :: rest, seen =>
    if tokens.any (fun t => containsSub t (lowerStr data.description)) then
      if name ∈ seen then getTypesFlat tokens rest seen
      else (name, data) :: getTypesFlat tokens rest (name :: seen)
    else if data.attributes.any (fun a => tokens.any (fun t => containsSub t (lowerStr a.description))) then
      if name ∈ seen then getTypesFlat tokens rest seen
      else (name, data) :: getTypesFlat tokens rest (name :: seen)
    else getTypesFlat tokens rest seen

/-- `_get_types`: keyword search over the catalog descriptions. -/
def _get_types (catalog : DataSpace) (keywords : Option String) : List (String × TypeData) :=
  match keywords with
  | none => []
  | some kw =>
    if pyStrip kw = "" then []
    else
      let requested := tokensOf kw
      if requested = [] then []
      else getTypesFlat requested catalog.types.flatten []

/-- `type_exists`: `any(type_id in entry for entry in types_entries)`. -/
def typeExists (catalog : DataSpace) (t : String) : Bool :=
  catalog.types.any (fun entry => entry.any (fun p => p.1 == t))

/-- The `read` tool: the conflicting-selectors check, the unknown-type
check, then delegation to `_read` (whose result, error or not, is returned
unchanged). -/
def read (catalog : DataSpace) (type_id object_id attributes : Option String)
    (filters : Option (List String)) : Except ReadError Params :=
  if nonBlank type_id && nonBlank object_id then
    Except.error ReadError.conflictingSelectors
  else if nonBlank type_id && !typeExists catalog (type_id.getD "") then
    Except.error (ReadError.unknownType (type_id.getD ""))
  else _read type_id object_id attributes filters

/-! ### Lemmas about `splitFirst` -/

/-- `splitFirst` returns a decomposition at the first (leftmost) occurrence
of the separator. -/
theorem splitFirst_some {sep : List Char} :
    ∀ {l a b : List Char}, splitFirst sep l = some (a, b) →
      l = a ++ sep ++ b ∧ ∀ a2 b2 : List Char, l = a2 ++ sep ++ b2 → a.length ≤ a2.length := by
  intro l
  induction l with
  | nil =>
    intro a b h
    simp only [splitFirst] at h
    split at h
    · next hp =>
      have hsep : sep = [] := List.prefix_nil.mp (List.isPrefixOf_iff_prefix.mp hp)
      injection h with h'
      have ha : a = [] := (congrArg Prod.fst h').symm
      have hb : b = [] := by simpa using (congrArg Prod.snd h').symm
      subst ha; subst hb; subst hsep
      exact ⟨rfl, fun a2 b2 _ => Nat.zero_le _⟩
    · exact absurd h (by simp)
  | cons c rest ih =>
    intro a b h
    simp only [splitFirst] at h
    split at h
    · next hp =>
      obtain ⟨t, ht⟩ := List.isPrefixOf_iff_prefix.mp hp
      injection h with h'
      have ha : a = [] := (congrArg Prod.fst h').symm
      have hb : b = (c :: rest).drop sep.length := (congrArg Prod.snd h').symm
      subst ha
      have hb' : b = t := by rw [hb, ← ht, List.drop_left]
      subst hb'
      refine ⟨by simpa using ht.symm, fun a2 b2 _ => Nat.zero_le _⟩
    · next hp =>
      cases hrec : splitFirst sep rest with
      | none => rw [hrec] at h; exact absurd h (by simp)
      | some pr =>
        obtain ⟨pre, post⟩ := pr
        rw [hrec] at h
        injection h with h'
        have ha : a = c :: pre := (congrArg Prod.fst h').symm
        have hb : b = post := (congrArg Prod.snd h').symm
        subst ha; subst hb
        obtain ⟨hdec, hmin⟩ := ih hrec
        constructor
        · simpa using hdec
        · intro a2 b2 h2
          cases a2 with
          | nil =>
            exfalso
            apply hp
            exact List.isPrefixOf_iff_prefix.mpr ⟨b2, by simpa using h2.symm⟩
          | cons x a2' =>
            have hx : x = c ∧ a2' ++ sep ++ b2 = rest := by
              have := h2
              simp only [List.cons_append] at this
              exact ⟨(List.cons.inj this).1.symm, ((List.cons.inj this).2).symm⟩
            have := hmin a2' b2 hx.2.symm
            simpa using Nat.succ_le_succ this

/-- If the separator occurs, `splitFirst` finds it. -/
theorem splitFirst_isSome (sep : List Char) :
    ∀ (a b : List Char), (splitFirst sep (a ++ sep ++ b)).isSome = true := by
  intro a
  induction a with
  | nil =>
    intro b
    cases hsb : sep ++ b with
    | nil =>
      have hsep : sep = [] := by
        cases sep with
        | nil => rfl
        | cons x xs => simp at hsb
      subst hsep
      have hb : b = [] := by simpa using hsb
      subst hb
      simp [splitFirst]
    | cons c rest =>
      have hpre : sep.isPrefixOf (c :: rest) = true := by
        rw [← hsb]
        exact List.isPrefixOf_iff_prefix.mpr ⟨b, rfl⟩
      simp only [List.nil_append, hsb, splitFirst, hpre, if_true]
      simp
  | cons x a' ih =>
    intro b
    simp only [List.cons_append, splitFirst]
    split
    · simp
    · cases hrec : splitFirst sep (a' ++ sep ++ b) with
      | none =>
        have := ih b
        rw [hrec] at this
        simp at this
      | some pr =>
        obtain ⟨pre, post⟩ := pr
        simp

/-- `splitFirst sep l` succeeds exactly when `sep` occurs in `l`
(Python `sep in l`). -/
theorem splitFirst_isSome_iff {sep l : List Char} :
    (splitFirst sep l).isSome = true ↔ sep <:+: l := by
  constructor
  · intro h
    cases hs : splitFirst sep l with
    | none => rw [hs] at h; simp at h
    | some pr =>
      obtain ⟨a, b⟩ := pr
      obtain ⟨hdec, _⟩ := splitFirst_some hs
      exact ⟨a, b, by simpa using hdec.symm⟩
  · rintro ⟨a, b, hab⟩
    have := splitFirst_isSome sep a b
    rwa [show a ++ sep ++ b = l by simpa using hab] at this

/-- Decidable equality of `Except` results, for evaluating the model on
concrete inputs. -/
instance instDecEqExcept {ε α : Type} [DecidableEq ε] [DecidableEq α] :
    DecidableEq (Except ε α)
  | Except.error x, Except.error y =>
    if h : x = y then Decidable.isTrue (by rw [h])
    else Decidable.isFalse (fun hh => h (Except.error.inj hh))
  | Except.error _, Except.ok _ => Decidable.isFalse (fun hh => Except.noConfusion hh)
  | Except.ok _, Except.error _ => Decidable.isFalse (fun hh => Except.noConfusion hh)
  | Except.ok x, Except.ok y =>
    if h : x = y then Decidable.isTrue (by rw [h])
    else Decidable.isFalse (fun hh => h (Except.ok.inj hh))

/-! ### Generic list lemmas -/

/-- Characterization of `List.find?`: the returned element satisfies the
predicate and every earlier element fails it. -/
theorem find?_decomp {α : Type} {p : α → Bool} :
    ∀ {l : List α} {a : α}, l.find? p = some a →
      p a = true ∧ ∃ l1 l2, l = l1 ++ a :: l2 ∧ ∀ b ∈ l1, p b = false := by
  intro l
  induction l with
  | nil => intro a h; simp [List.find?] at h
  | cons x t ih =>
    intro a h
    cases hx : p x with
    | true =>
      rw [List.find?_cons_of_pos _ hx] at h
      injection h with h'
      subst h'
      exact ⟨hx, [], t, rfl, by simp⟩
    | false =>
      rw [List.find?_cons_of_neg _ (by simp [hx])] at h
      obtain ⟨hpa, l1, l2, hdec, hall⟩ := ih h
      refine ⟨hpa, x :: l1, l2, by rw [hdec]; rfl, ?_⟩
      intro b hb
      rcases List.mem_cons.mp hb with h1 | h1
      · subst h1; exact hx
      · exact hall b h1

/-- A `dropWhile` over elements all failing the predicate is the identity. -/
theorem dropWhile_eq_self_of_all {p : Char → Bool} :
    ∀ {l : List Char}, (∀ c ∈ l, p c = false) → l.dropWhile p = l := by
  intro l h
  cases l with
  | nil => rfl
  | cons c rest =>
    rw [List.dropWhile_cons, h c (List.mem_cons_self c rest)]
    simp

/-- Stripping a string with no whitespace characters is the identity. -/
theorem pyStripL_eq_self {l : List Char} (h : ∀ c ∈ l, isPySpace c = false) :
    pyStripL l = l := by
  have h1 : l.dropWhile isPySpace = l := dropWhile_eq_self_of_all h
  have h2 : l.reverse.dropWhile isPySpace = l.reverse :=
    dropWhile_eq_self_of_all (fun c hc => h c (List.mem_reverse.mp hc))
  rw [pyStripL, h1, h2, List.reverse_reverse]

/-- The stripped string is a contiguous part of the original. -/
theorem pyStripL_infix (l : List Char) : pyStripL l <:+: l := by
  have h1 : l.dropWhile isPySpace <:+ l := List.dropWhile_suffix _
  have h2 : (l.dropWhile isPySpace).reverse.dropWhile isPySpace
      <:+ (l.dropWhile isPySpace).reverse := List.dropWhile_suffix _
  obtain ⟨t, ht⟩ := h2
  have h3 : pyStripL l <+: l.dropWhile isPySpace := by
    refine ⟨t.reverse, ?_⟩
    have := congrArg List.reverse ht
    simpa [pyStripL] using this
  exact h3.isInfix.trans h1.isInfix

/-- A demonstration catalog used to evaluate the model on concrete calls
(the deployment catalog `data-space.json` is configuration, not source). -/
def demoCatalog : DataSpace :=
  { types :=
    [ [("plug", { description := "A smart power plug"
                , attributes := [⟨"consumption", "Power consumption in watts"⟩,
                                 ⟨"located_in", "Location of the plug"⟩] })]
    , [("thermometer", { description := "Measures ambient temperature"
                       , attributes := [⟨"temperature", "Ambient temperature in Celsius"⟩,
                                        ⟨"located_in", "Location of the thermometer"⟩] })]
    , [("humidity_sensor", { description := "Measures relative humidity"
                           , attributes := [⟨"humidity", "Relative humidity percent"⟩] })]
    , [("hvac_unit", { description := "Heating and cooling unit"
                     , attributes := [⟨"target_temperature", "Target temperature setting"⟩,
                                      ⟨"mode", "Operating mode"⟩] })] ] }

/-! ### Shape lemmas for `normalize`, `_read` and `read` -/

/-- Errors out of the normalization loop are always invalid-filter errors,
for a filter occurring in the list and containing no supported operator. -/
theorem normalizeFiltersAux_error :
    ∀ {l : List String} {e : ReadError}, normalizeFiltersAux l = Except.error e →
      ∃ fs, fs ∈ l ∧ parseFilter fs = none ∧ e = ReadError.invalidFilter fs := by
  intro l
  induction l with
  | nil => intro e h; simp [normalizeFiltersAux] at h
  | cons fs rest ih =>
    intro e h
    simp only [normalizeFiltersAux] at h
    cases hp : parseFilter fs with
    | none =>
      rw [hp] at h
      injection h with h'
      exact ⟨fs, List.mem_cons_self fs rest, hp, h'.symm⟩
    | some tr =>
      obtain ⟨attr, op, raw⟩ := tr
      rw [hp] at h
      cases hrec : normalizeFiltersAux rest with
      | ok l2 => rw [hrec] at h; exact absurd h (by simp)
      | error e2 =>
        rw [hrec] at h
        injection h with h'
        subst h'
        obtain ⟨fs2, hmem, hnone, he⟩ := ih hrec
        exact ⟨fs2, List.mem_cons_of_mem fs hmem, hnone, he⟩

/-- `normalize` fails only with invalid-filter errors. -/
theorem normalize_error {l : List String} {e : ReadError}
    (h : normalize l = Except.error e) :
    ∃ fs, fs ∈ l ∧ parseFilter fs = none ∧ e = ReadError.invalidFilter fs := by
  simp only [normalize] at h
  cases haux : normalizeFiltersAux l with
  | ok l2 => rw [haux] at h; exact absurd h (by simp)
  | error e2 =>
    rw [haux] at h
    injection h with h'
    subst h'
    exact normalizeFiltersAux_error haux

/-- `_read` never produces the conflicting-selectors or unknown-type
errors: its only error source is filter normalization. -/
theorem _read_error {type_id object_id attributes : Option String}
    {filters : Option (List String)} {e : ReadError}
    (h : _read type_id object_id attributes filters = Except.error e) :
    ∃ fl fs, filters = some fl ∧ fs ∈ fl ∧ parseFilter fs = none ∧
      e = ReadError.invalidFilter fs := by
  cases filters with
  | none => simp [_read] at h
  | some fl =>
    cases fl with
    | nil => simp [_read] at h
    | cons fs0 rest =>
      simp only [_read] at h
      cases hn : normalize (fs0 :: rest) with
      | ok q => rw [hn] at h; exact absurd h (by simp)
      | error e2 =>
        rw [hn] at h
        injection h with h'
        subst h'
        obtain ⟨fs, hmem, hnone, he⟩ := normalize_error hn
        exact ⟨fs0 :: rest, fs, rfl, hmem, hnone, he⟩

/-- A conditionally-included parameter value is never blank. -/
theorem optField_some {x : Option String} {s : String}
    (h : (if nonBlank x then x else none) = some s) : pyStrip s ≠ "" := by
  cases hx : nonBlank x with
  | false => rw [if_neg (by simp [hx])] at h; cases h
  | true =>
    rw [if_pos hx] at h
    subst h
    simpa [nonBlank] using hx

/-! ### Claims C5, C6, C10 (selector checks) -/

/-- C5: whenever both `type_id` and `object_id` are supplied and non-blank,
`read` fails with the conflicting-selectors error — an error result is
returned before the store request parameters are ever built, so no store
call is made. -/
theorem C5_conflicting_selectors (catalog : DataSpace)
    (type_id object_id attributes : Option String) (filters : Option (List String))
    (ht : nonBlank type_id = true) (ho : nonBlank object_id = true) :
    read catalog type_id object_id attributes filters
      = Except.error ReadError.conflictingSelectors := by
  simp [read, ht, ho]

/-- Witness for C5 at `read(type_id="plug", object_id="x")`. -/
theorem C5_witness :
    nonBlank (some "plug") = true ∧ nonBlank (some "x") = true ∧
      read demoCatalog (some "plug") (some "x") none none
        = Except.error ReadError.conflictingSelectors :=
  ⟨by decide, by decide,
    C5_conflicting_selectors demoCatalog (some "plug") (some "x") none none
      (by decide) (by decide)⟩

/-- C6 as stated is false: when `type_id` is non-blank and unknown but
`object_id` is also non-blank, `read` fails with the conflicting-selectors
error, not the unknown-type error. -/
theorem C6_counterexample :
    typeExists demoCatalog "nonexistent_type" = false ∧
      nonBlank (some "nonexistent_type") = true ∧
      read demoCatalog (some "nonexistent_type") (some "x") none none
        = Except.error ReadError.conflictingSelectors ∧
      read demoCatalog (some "nonexistent_type") (some "x") none none
        ≠ Except.error (ReadError.unknownType "nonexistent_type") :=
  ⟨by decide, by decide, by decide, by decide⟩

/-- C6 (amended): whenever `type_id` is supplied, non-blank and not in the
catalog, and `object_id` is absent or blank, `read` fails with the
unknown-type error naming the offending identifier, before the store
request parameters are built. -/
theorem C6_unknown_type (catalog : DataSpace)
    (type_id object_id attributes : Option String) (filters : Option (List String))
    (ht : nonBlank type_id = true) (ho : nonBlank object_id = false)
    (hu : typeExists catalog (type_id.getD "") = false) :
    read catalog type_id object_id attributes filters
      = Except.error (ReadError.unknownType (type_id.getD "")) := by
  simp [read, ht, ho, hu]

/-- Witness for the amended C6 at `read(type_id="nonexistent_type")`. -/
theorem C6_witness :
    read demoCatalog (some "nonexistent_type") none none none
      = Except.error (ReadError.unknownType "nonexistent_type") :=
  C6_unknown_type demoCatalog (some "nonexistent_type") none none none
    (by decide) (by decide) (by decide)

/-- C10: `read` fails with the conflicting-selectors error exactly when
both selectors are supplied and non-blank; with both selectors absent or
blank (and no filters) the call succeeds and the dispatched parameter set
contains neither the `type` key nor the `id` key. -/
theorem C10_selector_iff (catalog : DataSpace)
    (type_id object_id attributes : Option String) (filters : Option (List String)) :
    (read catalog type_id object_id attributes filters
        = Except.error ReadError.conflictingSelectors
      ↔ nonBlank type_id = true ∧ nonBlank object_id = true) ∧
    (nonBlank type_id = false → nonBlank object_id = false →
      read catalog type_id object_id attributes none
        = Except.ok { type := none, id := none, q := none
                    , attrs := if nonBlank attributes then attributes else none }) := by
  constructor
  · constructor
    · intro h
      by_cases hb : (nonBlank type_id && nonBlank object_id) = true
      · simpa using hb
      · exfalso
        rw [read, if_neg (by simpa using hb)] at h
        by_cases hu : (nonBlank type_id && !typeExists catalog (type_id.getD "")) = true
        · rw [if_pos hu] at h
          exact ReadError.noConfusion (Except.error.inj h)
        · rw [if_neg hu] at h
          obtain ⟨fl, fs, _, _, _, he⟩ := _read_error h
          exact ReadError.noConfusion he
    · rintro ⟨ht, ho⟩
      simp [read, ht, ho]
  · intro ht ho
    simp [read, ht, ho, _read, mkParams]

/-- Witness for C10: a zero-selector call succeeds with neither `type` nor
`id` in the parameters. -/
theorem C10_witness :
    read demoCatalog none none (some "id,consumption") none
      = Except.ok { type := none, id := none, q := none, attrs := some "id,consumption" } := by
  have h := (C10_selector_iff demoCatalog none none (some "id,consumption") none).2 rfl rfl
  simpa using h

/-! ### Claim C7 (parameter set construction) -/

/-- C7: on every successful `read`, each of the `type`, `id`, `q`, `attrs`
keys is present exactly when the corresponding input (selector, normalized
query, attribute list) is present and non-blank; keys for absent inputs are
omitted, and no present key ever carries a blank value. -/
theorem C7_params (catalog : DataSpace)
    (type_id object_id attributes : Option String) (filters : Option (List String))
    (ps : Params)
    (h : read catalog type_id object_id attributes filters = Except.ok ps) :
    ps.type = (if nonBlank type_id then type_id else none) ∧
    ps.id = (if nonBlank object_id then object_id else none) ∧
    ps.attrs = (if nonBlank attributes then attributes else none) ∧
    ((filters = none ∨ filters = some []) → ps.q = none) ∧
    (∀ fl, filters = some fl → fl ≠ [] →
      ∃ q, normalize fl = Except.ok q ∧ ps.q = (if nonBlank (some q) then some q else none)) ∧
    (∀ s, ps.type = some s ∨ ps.id = some s ∨ ps.q = some s ∨ ps.attrs = some s →
      pyStrip s ≠ "") := by
  rw [read] at h
  by_cases hb : (nonBlank type_id && nonBlank object_id) = true
  · rw [if_pos hb] at h; exact absurd h (by simp)
  · rw [if_neg hb] at h
    by_cases hu : (nonBlank type_id && !typeExists catalog (type_id.getD "")) = true
    · rw [if_pos hu] at h; exact absurd h (by simp)
    · rw [if_neg hu] at h
      have main : ∀ qv, ps = mkParams type_id object_id qv attributes →
          ps.type = (if nonBlank type_id then type_id else none) ∧
          ps.id = (if nonBlank object_id then object_id else none) ∧
          ps.attrs = (if nonBlank attributes then attributes else none) ∧
          (∀ s, ps.type = some s ∨ ps.id = some s ∨ ps.q = some s ∨ ps.attrs = some s →
            pyStrip s ≠ "") := by
        intro qv hps
        subst hps
        refine ⟨rfl, rfl, rfl, ?_⟩
        intro s hs
        rcases hs with h1 | h1 | h1 | h1 <;> exact optField_some h1
      cases filters with
      | none =>
        rw [_read] at h
        have hps : ps = mkParams type_id object_id none attributes := (Except.ok.inj h).symm
        obtain ⟨h1, h2, h3, h4⟩ := main none hps
        refine ⟨h1, h2, h3, fun _ => by rw [hps]; rfl, ?_, h4⟩
        intro fl hfl; cases hfl
      | some fl =>
        cases fl with
        | nil =>
          rw [_read] at h
          have hps : ps = mkParams type_id object_id none attributes := (Except.ok.inj h).symm
          obtain ⟨h1, h2, h3, h4⟩ := main none hps
          refine ⟨h1, h2, h3, fun _ => by rw [hps]; rfl, ?_, h4⟩
          intro fl2 hfl2 hne
          injection hfl2 with hfl2'
          exact absurd hfl2'.symm hne
        | cons fs0 rest =>
          rw [_read] at h
          cases hn : normalize (fs0 :: rest) with
          | error e => rw [hn] at h; exact absurd h (by simp)
          | ok q =>
            rw [hn] at h
            have hps : ps = mkParams type_id object_id (some q) attributes :=
              (Except.ok.inj h).symm
            obtain ⟨h1, h2, h3, h4⟩ := main (some q) hps
            refine ⟨h1, h2, h3, ?_, ?_, h4⟩
            · rintro (h5 | h5) <;> cases h5
            · intro fl2 hfl2 _
              injection hfl2 with hfl2'
              subst hfl2'
              exact ⟨q, hn, by rw [hps]; rfl⟩

/-- Witness for C7 on a concrete successful read. -/
theorem C7_witness :
    read demoCatalog (some "plug") none (some "id,consumption")
        (some ["consumption>0.5"])
      = Except.ok ⟨some "plug", none, some "consumption>0.5", some "id,consumption"⟩ ∧
    (⟨some "plug", none, some "consumption>0.5", some "id,consumption"⟩ : Params).type
      = (if nonBlank (some "plug") then some "plug" else none) :=
  ⟨by decide,
    (C7_params demoCatalog (some "plug") none (some "id,consumption")
      (some ["consumption>0.5"])
      ⟨some "plug", none, some "consumption>0.5", some "id,consumption"⟩ (by decide)).1⟩

/-! ### Claim C9 (pre-quoted values) -/

/-- C9 as stated is false: the one-character value consisting of a single
quote has equal first and last characters which are a quote character, yet
normalization wraps it instead of preserving it (`is_quoted` also requires
length at least 2). -/
theorem C9_counterexample :
    (String.mk [singleQuote]).data.head? = some singleQuote ∧
    (String.mk [singleQuote]).data.getLast? = some singleQuote ∧
    isQuoteChar singleQuote = true ∧
    normalizeValue (String.mk [singleQuote]) ≠ String.mk [singleQuote] :=
  ⟨by decide, by decide, by decide, by decide⟩

/-- C9 (amended): every raw value of length at least 2 whose first and last
characters are equal and are a quote character is preserved unchanged by
value normalization, with no validation of the interior (no balance or
matching check beyond the first/last comparison). -/
theorem C9_quoted_preserved (v : String) (c : Char)
    (h1 : v.data.head? = some c) (h2 : v.data.getLast? = some c)
    (hq : isQuoteChar c = true) (hlen : 2 ≤ v.data.length) :
    normalizeValue v = v := by
  have hquoted : is_quoted v = true := by
    cases hd : v.data with
    | nil => rw [hd] at h1; cases h1
    | cons x cs =>
      have hx : x = c := by
        rw [hd] at h1
        simpa using h1
      cases cs with
      | nil => rw [hd] at hlen; simp at hlen
      | cons y cs' =>
        have hlast : (y :: cs').getLast? = some c := by
          rw [hd] at h2
          rwa [List.getLast?_cons_cons] at h2
        simp only [is_quoted, hd, hlast]
        simp [hx, hq]
  simp [normalizeValue, hquoted]

/-- Witness for the amended C9: a double-quoted value with an unbalanced
single quote inside is preserved verbatim. -/
theorem C9_witness :
    normalizeValue (String.mk ['"', 'a', singleQuote, 'b', '"'])
      = String.mk ['"', 'a', singleQuote, 'b', '"'] :=
  C9_quoted_preserved (String.mk ['"', 'a', singleQuote, 'b', '"']) '"'
    (by decide) (by decide) (by decide) (by decide)

/-! ### Claim C2: regex-numeric values versus `float()` parsing -/

/-- `digitTail` consumes a leading run of digits and stops at a character
that is neither a digit nor an underscore. -/
theorem digitTail_digits_append :
    ∀ (ds rest : List Char), (∀ c ∈ ds, c.isDigit = true) →
      (rest = [] ∨ ∃ r0 rs, rest = r0 :: rs ∧ r0.isDigit = false ∧ ¬r0 = '_') →
      digitTail (ds ++ rest) = rest := by
  intro ds
  induction ds with
  | nil =>
    intro rest _ hrest
    rcases hrest with h | ⟨r0, rs, hr, hd, hu⟩
    · subst h; rfl
    · subst hr
      simp only [List.nil_append]
      unfold digitTail
      rw [if_neg (by simp [hd]), if_neg hu]
  | cons a ds' ih =>
    intro rest hds hrest
    have ha : a.isDigit = true := hds a (List.mem_cons_self _ _)
    simp only [List.cons_append]
    unfold digitTail
    rw [if_pos ha]
    exact ih rest (fun c hc => hds c (List.mem_cons_of_mem _ hc)) hrest

/-- Characters matched by the numeric regex. -/
def regexChar (c : Char) : Bool :=
  c.isDigit || c == '.' || c == '-'

/-- Regex characters are not whitespace. -/
theorem regexChar_not_space {c : Char} (h : regexChar c = true) : isPySpace c = false := by
  cases hsp : isPySpace c with
  | false => rfl
  | true =>
    exfalso
    simp only [isPySpace, Bool.or_eq_true, beq_iff_eq] at hsp
    rcases hsp with ((((h1 | h1) | h1) | h1) | h1) | h1 <;> subst h1 <;>
      exact absurd h (by decide)

/-- Digits are not sign characters. -/
theorem digit_not_sign {c : Char} (h : c.isDigit = true) : ¬(c = '+' ∨ c = '-') := by
  rintro (h1 | h1) <;> subst h1 <;> exact absurd h (by decide)

/-- Structure of a string matching the regex core `\d+(\.\d+)?`: the float
mantissa parser consumes all of it, it starts with a digit, and it consists
of regex characters only. -/
theorem regexCore_struct {l : List Char} (h : regexCore l = true) :
    parseMantissa l = some [] ∧ (∃ d t, l = d :: t ∧ d.isDigit = true) ∧
      (∀ ch ∈ l, regexChar ch = true) := by
  cases l with
  | nil => exact absurd h (by simp [regexCore])
  | cons c rest =>
    simp only [regexCore, Bool.and_eq_true] at h
    obtain ⟨hc, htail⟩ := h
    cases hdw : rest.dropWhile Char.isDigit with
    | nil =>
      have hrest : rest = rest.takeWhile Char.isDigit := by
        conv_lhs => rw [← List.takeWhile_append_dropWhile (p := Char.isDigit) (l := rest)]
        rw [hdw, List.append_nil]
      have htw : ∀ ch ∈ rest, ch.isDigit = true := by
        intro ch hch
        rw [hrest] at hch
        exact List.mem_takeWhile_imp hch
      have hdt : digitTail rest = [] := by
        have := digitTail_digits_append rest [] htw (Or.inl rfl)
        simpa using this
      have h1 : parseDigitpart (c :: rest) = some [] := by
        simp only [parseDigitpart]
        rw [if_pos hc, hdt]
      refine ⟨by simp [parseMantissa, h1], ⟨c, rest, rfl, hc⟩, ?_⟩
      intro ch hch
      rcases List.mem_cons.mp hch with h2 | h2
      · subst h2; simp [regexChar, hc]
      · simp [regexChar, htw ch h2]
    | cons r0 rs =>
      rw [hdw] at htail
      simp only [Bool.and_eq_true, beq_iff_eq] at htail
      obtain ⟨hr0, hrs⟩ := htail
      subst hr0
      cases rs with
      | nil => simp at hrs
      | cons d r3 =>
        simp only [Bool.and_eq_true, List.isEmpty_iff] at hrs
        obtain ⟨hd, hr3⟩ := hrs
        have htw : ∀ ch ∈ rest.takeWhile Char.isDigit, ch.isDigit = true :=
          fun ch hch => List.mem_takeWhile_imp hch
        have hrest : rest = rest.takeWhile Char.isDigit ++ ('.' :: d :: r3) := by
          conv_lhs => rw [← List.takeWhile_append_dropWhile (p := Char.isDigit) (l := rest)]
          rw [hdw]
        have hr3d : ∀ ch ∈ r3, ch.isDigit = true := List.dropWhile_eq_nil_iff.mp hr3
        have hdt : digitTail rest = '.' :: d :: r3 := by
          rw [hrest]
          exact digitTail_digits_append _ _ htw
            (Or.inr ⟨'.', d :: r3, rfl, by decide, by decide⟩)
        have h1 : parseDigitpart (c :: rest) = some ('.' :: d :: r3) := by
          simp only [parseDigitpart]
          rw [if_pos hc, hdt]
        have hdt3 : digitTail r3 = [] := by
          have := digitTail_digits_append r3 [] hr3d (Or.inl rfl)
          simpa using this
        have h2 : parseDigitpart (d :: r3) = some [] := by
          simp only [parseDigitpart]
          rw [if_pos hd, hdt3]
        refine ⟨by simp [parseMantissa, h1, h2], ⟨c, rest, rfl, hc⟩, ?_⟩
        intro ch hch
        rcases List.mem_cons.mp hch with h3 | h3
        · subst h3; simp [regexChar, hc]
        · rw [hrest] at h3
          rcases List.mem_append.mp h3 with h4 | h4
          · simp [regexChar, htw ch h4]
          · rcases List.mem_cons.mp h4 with h5 | h5
            · subst h5; decide
            · rcases List.mem_cons.mp h5 with h6 | h6
              · subst h6; simp [regexChar, hd]
              · simp [regexChar, hr3d ch h6]

/-- Every string matching the specification's numeric regex is accepted by
`float()`, hence `is_number` holds for it. -/
theorem regex_implies_float {s : String} (h : regexNumeric s = true) :
    is_number s = true := by
  rw [regexNumeric] at h
  cases hdata : s.data with
  | nil => rw [hdata] at h; exact absurd h (by simp)
  | cons c0 rest0 =>
    rw [hdata] at h
    have h' : (if c0 = '-' then regexCore rest0 else regexCore (c0 :: rest0)) = true := h
    by_cases hc0 : c0 = '-'
    · rw [if_pos hc0] at h'
      obtain ⟨hm, ⟨d, t, hdt, hdig⟩, hgood⟩ := regexCore_struct h'
      have hstrip : pyStripL (c0 :: rest0) = c0 :: rest0 := by
        apply pyStripL_eq_self
        intro ch hch
        rcases List.mem_cons.mp hch with h1 | h1
        · rw [h1, hc0]; decide
        · exact regexChar_not_space (hgood ch h1)
      have hsign : dropSign (c0 :: rest0) = rest0 := by
        simp [dropSign, hc0]
      have hcore : pyFloatCore rest0 = true := by
        rw [hdt]
        simp only [pyFloatCore]
        rw [if_pos (by simp [hdig]), ← hdt, hm]
        decide
      rw [is_number, pyFloatValid, hdata, hstrip, hsign]
      exact hcore
    · rw [if_neg hc0] at h'
      obtain ⟨hm, ⟨d, t, hdt, hdig⟩, hgood⟩ := regexCore_struct h'
      have hstrip : pyStripL (c0 :: rest0) = c0 :: rest0 := by
        apply pyStripL_eq_self
        intro ch hch
        exact regexChar_not_space (hgood ch hch)
      have hc0d : c0.isDigit = true := by
        injection hdt with h1 _
        rw [h1]; exact hdig
      have hsign : dropSign (c0 :: rest0) = c0 :: rest0 := by
        simp [dropSign, digit_not_sign hc0d]
      have hcore : pyFloatCore (c0 :: rest0) = true := by
        simp only [pyFloatCore]
        rw [if_pos (by simp [hc0d]), hm]
        decide
      rw [is_number, pyFloatValid, hdata, hstrip, hsign]
      exact hcore

/-- C2 as stated is false: the value `1e5` matches neither the numeric
regex nor the pre-quoted test, yet `float("1e5")` succeeds, so the code
passes it through unwrapped instead of wrapping it in double quotes. -/
theorem C2_counterexample :
    regexNumeric "1e5" = false ∧ is_quoted "1e5" = false ∧
      normalizeValue "1e5" = "1e5" ∧ normalizeValue "1e5" ≠ "\"" ++ "1e5" ++ "\"" :=
  ⟨by decide, by decide, by decide, by decide⟩

/-- C2 (amended): values matching the numeric regex pass through value
normalization unquoted and unchanged (every regex match parses as a
floating-point literal); pre-quoted values pass through unchanged; and a
value is wrapped in double quotes exactly when it is neither accepted by
floating-point parsing (`is_number`) nor pre-quoted. -/
theorem C2_value_classification (v : String) :
    (regexNumeric v = true → normalizeValue v = v) ∧
    (is_quoted v = true → normalizeValue v = v) ∧
    (is_number v = false → is_quoted v = false →
      normalizeValue v = "\"" ++ v ++ "\"") := by
  refine ⟨?_, ?_, ?_⟩
  · intro h
    simp [normalizeValue, regex_implies_float h]
  · intro h
    simp [normalizeValue, h]
  · intro h1 h2
    simp [normalizeValue, h1, h2]

/-- Witness for the amended C2 on concrete values of all three kinds. -/
theorem C2_witness :
    normalizeValue "-12.5" = "-12.5" ∧
    normalizeValue (String.mk [singleQuote, 'a', singleQuote]) = String.mk [singleQuote, 'a', singleQuote] ∧
    normalizeValue "building1" = "\"" ++ "building1" ++ "\"" :=
  ⟨(C2_value_classification "-12.5").1 (by decide),
   (C2_value_classification (String.mk [singleQuote, 'a', singleQuote])).2.1 (by decide),
   (C2_value_classification "building1").2.2 (by decide) (by decide)⟩

/-! ### Claim C3 (invalid filters are all-or-nothing and propagate) -/

/-- A filter string fails to parse exactly when no supported operator
occurs in it. -/
theorem parseFilter_none_iff {fs : String} :
    parseFilter fs = none ↔ ∀ op ∈ supported_operators, ¬(op.data <:+: fs.data) := by
  constructor
  · intro h op hop hinf
    have hsome : (splitFirst op.data fs.data).isSome = true := splitFirst_isSome_iff.mpr hinf
    rw [parseFilter] at h
    cases hf : supported_operators.find? (fun o => (splitFirst o.data fs.data).isSome) with
    | none => exact List.find?_eq_none.mp hf op hop hsome
    | some op2 =>
      rw [hf] at h
      obtain ⟨hp2, _⟩ := find?_decomp hf
      have h2 : (match splitFirst op2.data fs.data with
          | some (pre, post) => some ((⟨pyStripL pre⟩ : String), op2, (⟨pyStripL post⟩ : String))
          | none => none) = (none : Option (String × String × String)) := h
      cases hs2 : splitFirst op2.data fs.data with
      | none => rw [hs2] at hp2; simp at hp2
      | some pr =>
        obtain ⟨pre, post⟩ := pr
        rw [hs2] at h2
        cases h2
  · intro h
    rw [parseFilter]
    cases hf : supported_operators.find? (fun o => (splitFirst o.data fs.data).isSome) with
    | none => rfl
    | some op =>
      exfalso
      obtain ⟨hp, l1, l2, hdec, _⟩ := find?_decomp hf
      have hmem : op ∈ supported_operators := by
        rw [hdec]
        exact List.mem_append_right _ (List.mem_cons_self _ _)
      exact h op hmem (splitFirst_isSome_iff.mp hp)

/-- When some filter in the list has no supported operator, the
normalization loop fails with the invalid-filter error for the first such
filter. -/
theorem normalizeFiltersAux_error_of_bad :
    ∀ {l : List String}, (∃ fs ∈ l, parseFilter fs = none) →
      ∃ fs0 ∈ l, parseFilter fs0 = none ∧
        normalizeFiltersAux l = Except.error (ReadError.invalidFilter fs0) := by
  intro l
  induction l with
  | nil => rintro ⟨fs, h, _⟩; simp at h
  | cons fs rest ih =>
    rintro ⟨fsb, hmem, hnone⟩
    cases hp : parseFilter fs with
    | none =>
      exact ⟨fs, List.mem_cons_self _ _, hp, by simp [normalizeFiltersAux, hp]⟩
    | some tr =>
      obtain ⟨attr, op, raw⟩ := tr
      have hmem' : fsb ∈ rest := by
        rcases List.mem_cons.mp hmem with h1 | h1
        · subst h1; rw [hp] at hnone; cases hnone
        · exact h1
      obtain ⟨fs0, h0mem, h0none, h0err⟩ := ih ⟨fsb, hmem', hnone⟩
      refine ⟨fs0, List.mem_cons_of_mem _ h0mem, h0none, ?_⟩
      simp [normalizeFiltersAux, hp, h0err]

/-- C3: if any filter string in the list contains no supported operator,
normalization of the whole list fails with an invalid-filter error naming
an offending filter string (no partial result is produced), and `read`
— when it reaches normalization — returns exactly that error, unchanged. -/
theorem C3_invalid_filter_propagates (catalog : DataSpace)
    (type_id object_id attributes : Option String) (filters : List String)
    (hbad : ∃ fs ∈ filters, ∀ op ∈ supported_operators, ¬(op.data <:+: fs.data))
    (hsel : ¬(nonBlank type_id = true ∧ nonBlank object_id = true))
    (hty : nonBlank type_id = true → typeExists catalog (type_id.getD "") = true) :
    ∃ fs0 ∈ filters, (∀ op ∈ supported_operators, ¬(op.data <:+: fs0.data)) ∧
      normalize filters = Except.error (ReadError.invalidFilter fs0) ∧
      read catalog type_id object_id attributes (some filters)
        = Except.error (ReadError.invalidFilter fs0) := by
  obtain ⟨fs, hmem, hops⟩ := hbad
  obtain ⟨fs0, h0mem, h0none, h0err⟩ :=
    normalizeFiltersAux_error_of_bad ⟨fs, hmem, parseFilter_none_iff.mpr hops⟩
  have hnorm : normalize filters = Except.error (ReadError.invalidFilter fs0) := by
    simp [normalize, h0err]
  refine ⟨fs0, h0mem, parseFilter_none_iff.mp h0none, hnorm, ?_⟩
  have hb : ¬((nonBlank type_id && nonBlank object_id) = true) := by
    intro hh
    exact hsel (by simpa using hh)
  have hu : ¬((nonBlank type_id && !typeExists catalog (type_id.getD "")) = true) := by
    cases hnb : nonBlank type_id with
    | false => simp [hnb]
    | true => simp [hnb, hty hnb]
  rw [read, if_neg hb, if_neg hu]
  cases filters with
  | nil => simp at hmem
  | cons f1 frest =>
    rw [_read, hnorm]

/-- Witness for C3 at `normalize(["bad_clause_no_operator"])` reached
through `read`. -/
theorem C3_witness :
    ∃ fs0 ∈ ["bad_clause_no_operator"],
      (∀ op ∈ supported_operators, ¬(op.data <:+: fs0.data)) ∧
      normalize ["bad_clause_no_operator"]
        = Except.error (ReadError.invalidFilter fs0) ∧
      read demoCatalog none none none (some ["bad_clause_no_operator"])
        = Except.error (ReadError.invalidFilter fs0) :=
  C3_invalid_filter_propagates demoCatalog none none none ["bad_clause_no_operator"]
    (by decide) (by decide) (by decide)

/-! ### Claim C4 (keyword resolver) -/

/-- First-occurrence deduplication by type name with an explicit seen set:
the shape of the `matches`/`seen` accumulation in `_get_types`. -/
def dedupAux : List (String × TypeData) → List String → List (String × TypeData)
  | [], _ => []
  | p :: rest, seen =>
    if p.1 ∈ seen then dedupAux rest seen
    else p :: dedupAux rest (p.1 :: seen)

/-- The resolver scan is: filter by the match predicate, then deduplicate
names keeping first occurrences. -/
theorem getTypesFlat_eq_dedup (tokens : List String) :
    ∀ (l : List (String × TypeData)) (seen : List String),
      getTypesFlat tokens l seen
        = dedupAux (l.filter (fun p => matchesType tokens p.2)) seen := by
  intro l
  induction l with
  | nil => intro seen; rfl
  | cons p rest ih =>
    intro seen
    obtain ⟨name, data⟩ := p
    rw [List.filter_cons]
    by_cases hdesc : tokens.any (fun t => containsSub t (lowerStr data.description)) = true
    · have hm : matchesType tokens data = true := by
        simp [matchesType, hdesc]
      rw [if_pos (by simpa using hm)]
      unfold getTypesFlat
      rw [if_pos hdesc]
      unfold dedupAux
      by_cases hseen : name ∈ seen
      · rw [if_pos hseen, if_pos hseen, ih]
      · rw [if_neg hseen, if_neg hseen, ih]
    · by_cases hattr : data.attributes.any
          (fun a => tokens.any (fun t => containsSub t (lowerStr a.description))) = true
      · have hm : matchesType tokens data = true := by
          simp [matchesType, hattr]
        rw [if_pos (by simpa using hm)]
        unfold getTypesFlat
        rw [if_neg hdesc, if_pos hattr]
        unfold dedupAux
        by_cases hseen : name ∈ seen
        · rw [if_pos hseen, if_pos hseen, ih]
        · rw [if_neg hseen, if_neg hseen, ih]
      · have hm : matchesType tokens data = false := by
          simp [matchesType, hdesc, hattr]
        rw [if_neg (by simp [hm])]
        unfold getTypesFlat
        rw [if_neg hdesc, if_neg hattr, ih]

/-- Deduplication returns a sublist (subsequence) of its input. -/
theorem dedupAux_sublist :
    ∀ (l : List (String × TypeData)) (seen : List String), List.Sublist (dedupAux l seen) l := by
  intro l
  induction l with
  | nil => intro seen; exact List.Sublist.refl _
  | cons p rest ih =>
    intro seen
    unfold dedupAux
    by_cases hseen : p.1 ∈ seen
    · rw [if_pos hseen]
      exact (ih seen).cons p
    · rw [if_neg hseen]
      exact (ih (p.1 :: seen)).cons₂ p

/-- The names emitted by deduplication are distinct and avoid the seen set. -/
theorem dedupAux_names :
    ∀ (l : List (String × TypeData)) (seen : List String),
      ((dedupAux l seen).map Prod.fst).Nodup ∧
        ∀ n ∈ (dedupAux l seen).map Prod.fst, n ∉ seen := by
  intro l
  induction l with
  | nil => intro seen; exact ⟨List.nodup_nil, by simp [dedupAux]⟩
  | cons p rest ih =>
    intro seen
    unfold dedupAux
    by_cases hseen : p.1 ∈ seen
    · rw [if_pos hseen]
      exact ih seen
    · rw [if_neg hseen]
      obtain ⟨hnd, havoid⟩ := ih (p.1 :: seen)
      constructor
      · simp only [List.map_cons, List.nodup_cons]
        refine ⟨?_, hnd⟩
        intro hmem
        exact havoid p.1 hmem (List.mem_cons_self _ _)
      · intro n hn
        simp only [List.map_cons, List.mem_cons] at hn
        rcases hn with h1 | h1
        · subst h1; exact hseen
        · intro hns
          exact havoid n h1 (List.mem_cons_of_mem _ hns)

/-- Every name in the input survives deduplication unless already seen. -/
theorem dedupAux_complete :
    ∀ (l : List (String × TypeData)) (seen : List String) (n : String),
      (∃ td, (n, td) ∈ l) → n ∈ seen ∨ ∃ q ∈ dedupAux l seen, q.1 = n := by
  intro l
  induction l with
  | nil => rintro seen n ⟨td, htd⟩; simp at htd
  | cons p rest ih =>
    rintro seen n ⟨td, htd⟩
    unfold dedupAux
    by_cases hseen : p.1 ∈ seen
    · rw [if_pos hseen]
      rcases List.mem_cons.mp htd with h1 | h1
      · left
        have : n = p.1 := by rw [← h1]
        rwa [this]
      · exact ih seen n ⟨td, h1⟩
    · rw [if_neg hseen]
      rcases List.mem_cons.mp htd with h1 | h1
      · right
        exact ⟨p, List.mem_cons_self _ _, by rw [← h1]⟩
      · rcases ih (p.1 :: seen) n ⟨td, h1⟩ with h2 | ⟨q, hq, hqn⟩
        · rcases List.mem_cons.mp h2 with h3 | h3
          · right; exact ⟨p, List.mem_cons_self _ _, h3.symm⟩
          · left; exact h3
        · right; exact ⟨q, List.mem_cons_of_mem _ hq, hqn⟩

/-- A string that strips to empty is all whitespace. -/
theorem all_space_of_strip_nil {l : List Char} (h : pyStripL l = []) :
    ∀ c ∈ l, isPySpace c = true := by
  have h1 : (l.dropWhile isPySpace).reverse.dropWhile isPySpace = [] := by
    have := congrArg List.reverse h
    simpa [pyStripL] using this
  have h2 : ∀ c ∈ (l.dropWhile isPySpace).reverse, isPySpace c = true :=
    List.dropWhile_eq_nil_iff.mp h1
  have h3 : ∀ c ∈ l.dropWhile isPySpace, isPySpace c = true :=
    fun c hc => h2 c (List.mem_reverse.mpr hc)
  intro c hc
  conv at hc => rw [← List.takeWhile_append_dropWhile (p := isPySpace) (l := l)]
  rcases List.mem_append.mp hc with h4 | h4
  · exact List.mem_takeWhile_imp h4
  · exact h3 c h4

/-- An all-whitespace string strips to empty. -/
theorem strip_nil_of_all_space {l : List Char} (h : ∀ c ∈ l, isPySpace c = true) :
    pyStripL l = [] := by
  have h1 : l.dropWhile isPySpace = [] := List.dropWhile_eq_nil_iff.mpr h
  simp [pyStripL, h1]

/-- Characters of the pieces of a split come from the original string. -/
theorem pySplitF_chars (sep : List Char) :
    ∀ (n : Nat) (l piece : List Char), piece ∈ pySplitF sep n l →
      ∀ c ∈ piece, c ∈ l := by
  intro n
  induction n with
  | zero =>
    intro l piece hp c hc
    simp only [pySplitF, List.mem_singleton] at hp
    rwa [hp] at hc
  | succ n ih =>
    intro l piece hp c hc
    simp only [pySplitF] at hp
    cases hs : splitFirst sep l with
    | none =>
      rw [hs] at hp
      simp only [List.mem_singleton] at hp
      rwa [hp] at hc
    | some pr =>
      obtain ⟨pre, post⟩ := pr
      rw [hs] at hp
      obtain ⟨hdec, _⟩ := splitFirst_some hs
      rcases List.mem_cons.mp hp with h1 | h1
      · subst h1
        rw [hdec]
        simp only [List.append_assoc, List.mem_append]
        exact Or.inl hc
      · have := ih post piece h1 c hc
        rw [hdec]
        simp only [List.append_assoc, List.mem_append]
        exact Or.inr (Or.inr this)

/-- Blank keyword input produces no tokens. -/
theorem tokensOf_blank {kw : String} (h : pyStrip kw = "") : tokensOf kw = [] := by
  have hsp : ∀ c ∈ kw.data, isPySpace c = true := by
    apply all_space_of_strip_nil
    have : (pyStrip kw).data = pyStripL kw.data := rfl
    rw [h] at this
    exact this.symm
  rw [tokensOf]
  have hfilter : (((pySplitOn "," kw).map pyStrip).filter (fun a => a != "")) = [] := by
    rw [List.filter_eq_nil_iff]
    intro a ha
    simp only [List.mem_map] at ha
    obtain ⟨piece, hpiece, hstrip⟩ := ha
    simp only [pySplitOn, List.mem_map] at hpiece
    obtain ⟨pl, hpl, hplq⟩ := hpiece
    have hall : ∀ c ∈ pl, isPySpace c = true :=
      fun c hc => hsp c (pySplitF_chars _ _ _ _ hpl c hc)
    have : pyStrip piece = "" := by
      rw [← hplq, pyStrip]
      have := strip_nil_of_all_space hall
      simp [this]
    simp [← hstrip, this]
  rw [hfilter]
  rfl

/-- C4: the keyword resolver returns, in catalog order and each exactly
once, exactly the types whose lower-cased description or some attribute's
lower-cased description contains one of the trimmed lower-cased
comma-separated keywords; absent, empty or whitespace-only input yields an
empty result (the resolver is a total function, so no error is possible). -/
theorem C4_resolver (catalog : DataSpace) (keywords : String) :
    _get_types catalog none = [] ∧
    (pyStrip keywords = "" → _get_types catalog (some keywords) = []) ∧
    List.Sublist (_get_types catalog (some keywords)) catalog.types.flatten ∧
    ((_get_types catalog (some keywords)).map Prod.fst).Nodup ∧
    (∀ p ∈ _get_types catalog (some keywords),
      p ∈ catalog.types.flatten ∧ matchesType (tokensOf keywords) p.2 = true) ∧
    (∀ p ∈ catalog.types.flatten, matchesType (tokensOf keywords) p.2 = true →
      ∃ q ∈ _get_types catalog (some keywords), q.1 = p.1) := by
  have hnone : _get_types catalog none = [] := rfl
  by_cases hblank : pyStrip keywords = ""
  · have hres : _get_types catalog (some keywords) = [] := by
      rw [_get_types, if_pos hblank]
    have htok : tokensOf keywords = [] := tokensOf_blank hblank
    refine ⟨hnone, fun _ => hres, by rw [hres]; exact List.nil_sublist _,
      by rw [hres]; exact List.nodup_nil, by rw [hres]; simp, ?_⟩
    intro p _ hm
    rw [htok] at hm
    simp [matchesType] at hm
  · by_cases hreq : tokensOf keywords = []
    · have hres : _get_types catalog (some keywords) = [] := by
        rw [_get_types, if_neg hblank, if_pos hreq]
      refine ⟨hnone, fun hb => absurd hb hblank, by rw [hres]; exact List.nil_sublist _,
        by rw [hres]; exact List.nodup_nil, by rw [hres]; simp, ?_⟩
      intro p _ hm
      rw [hreq] at hm
      simp [matchesType] at hm
    · have hres : _get_types catalog (some keywords)
          = dedupAux ((catalog.types.flatten).filter
              (fun p => matchesType (tokensOf keywords) p.2)) [] := by
        rw [_get_types, if_neg hblank, if_neg hreq]
        exact getTypesFlat_eq_dedup _ _ _
      have hsub : List.Sublist (_get_types catalog (some keywords)) catalog.types.flatten := by
        rw [hres]
        exact (dedupAux_sublist _ _).trans (List.filter_sublist _)
      refine ⟨hnone, fun hb => absurd hb hblank, hsub, ?_, ?_, ?_⟩
      · rw [hres]
        exact (dedupAux_names _ _).1
      · intro p hp
        refine ⟨hsub.subset hp, ?_⟩
        rw [hres] at hp
        have hpf := (dedupAux_sublist _ _).subset hp
        have := List.of_mem_filter hpf
        simpa using this
      · intro p hp hm
        rw [hres]
        have hpf : p ∈ (catalog.types.flatten).filter
            (fun q => matchesType (tokensOf keywords) q.2) :=
          List.mem_filter.mpr ⟨hp, by simpa using hm⟩
        rcases dedupAux_complete _ [] p.1 ⟨p.2, hpf⟩ with h1 | h1
        · simp at h1
        · exact h1

/-- Witness for C4: on the demonstration catalog the resolver finds
`hvac_unit` (matching only through an attribute description) for the
keywords `temperature,humidity`, and its output names are distinct. -/
theorem C4_witness :
    ((_get_types demoCatalog (some "temperature,humidity")).map Prod.fst).Nodup ∧
    (∃ q ∈ _get_types demoCatalog (some "temperature,humidity"), q.1 = "hvac_unit") :=
  ⟨(C4_resolver demoCatalog "temperature,humidity").2.2.2.1,
    (C4_resolver demoCatalog "temperature,humidity").2.2.2.2.2
      ("hvac_unit", ⟨"Heating and cooling unit",
        [⟨"target_temperature", "Target temperature setting"⟩, ⟨"mode", "Operating mode"⟩]⟩)
      (by decide) (by decide)⟩

/-! ### Claim C1 (operator priority and first-occurrence splitting) -/

/-- If some supported operator occurs in the filter string, parsing
succeeds. -/
theorem parseFilter_isSome {fs : String}
    (h : ∃ op ∈ supported_operators, op.data <:+: fs.data) :
    ∃ attr op raw, parseFilter fs = some (attr, op, raw) := by
  obtain ⟨op, hmem, hinf⟩ := h
  cases hf : supported_operators.find? (fun o => (splitFirst o.data fs.data).isSome) with
  | none =>
    exact absurd (splitFirst_isSome_iff.mpr hinf)
      (by simpa using List.find?_eq_none.mp hf op hmem)
  | some op0 =>
    obtain ⟨hp0, _⟩ := find?_decomp hf
    cases hs : splitFirst op0.data fs.data with
    | none => rw [hs] at hp0; simp at hp0
    | some pr =>
      obtain ⟨pre, post⟩ := pr
      refine ⟨⟨pyStripL pre⟩, op0, ⟨pyStripL post⟩, ?_⟩
      simp only [parseFilter, hf, hs]

/-- Full characterization of a successful operator scan: the operator is
the first of the priority list occurring in the string, the decomposition
is at its leftmost occurrence, and attribute/raw value are the stripped
parts. -/
theorem parseFilter_some_spec {fs attr op raw : String}
    (h : parseFilter fs = some (attr, op, raw)) :
    ∃ pre post ops1 ops2,
      supported_operators = ops1 ++ op :: ops2 ∧
      (∀ op2 ∈ ops1, ¬(op2.data <:+: fs.data)) ∧
      fs.data = pre ++ op.data ++ post ∧
      (∀ pre2 post2, fs.data = pre2 ++ op.data ++ post2 → pre.length ≤ pre2.length) ∧
      attr = (⟨pyStripL pre⟩ : String) ∧ raw = (⟨pyStripL post⟩ : String) := by
  rw [parseFilter] at h
  cases hf : supported_operators.find? (fun o => (splitFirst o.data fs.data).isSome) with
  | none => rw [hf] at h; cases h
  | some op0 =>
    rw [hf] at h
    obtain ⟨hp0, ops1, ops2, hdec, hfail⟩ := find?_decomp hf
    have h2 : (match splitFirst op0.data fs.data with
        | some (pre, post) =>
          some ((⟨pyStripL pre⟩ : String), op0, (⟨pyStripL post⟩ : String))
        | none => none) = some (attr, op, raw) := h
    cases hs : splitFirst op0.data fs.data with
    | none => rw [hs] at h2; cases h2
    | some pr =>
      obtain ⟨pre, post⟩ := pr
      rw [hs] at h2
      injection h2 with h3
      have ha : attr = (⟨pyStripL pre⟩ : String) := (congrArg Prod.fst h3).symm
      have hop : op = op0 := (congrArg (fun x => x.2.1) h3).symm
      have hraw : raw = (⟨pyStripL post⟩ : String) := (congrArg (fun x => x.2.2) h3).symm
      subst hop
      obtain ⟨hd, hmin⟩ := splitFirst_some hs
      refine ⟨pre, post, ops1, ops2, hdec, ?_, hd, hmin, ha, hraw⟩
      intro op2 h2m hinf
      have := hfail op2 h2m
      rw [splitFirst_isSome_iff.mpr hinf] at this
      cases this

/-- When every filter contains a supported operator, the normalization
loop succeeds, clause by clause, in input order. -/
theorem normalizeFiltersAux_ok_of_good :
    ∀ {l : List String}, (∀ fs ∈ l, ∃ op ∈ supported_operators, op.data <:+: fs.data) →
      ∃ clauses, normalizeFiltersAux l = Except.ok clauses ∧
        List.Forall₂ (fun fs clause => ∃ attr op raw,
          parseFilter fs = some (attr, op, raw) ∧
          clause = attr ++ op ++ normalizeValue raw) l clauses := by
  intro l
  induction l with
  | nil => intro _; exact ⟨[], rfl, List.Forall₂.nil⟩
  | cons fs rest ih =>
    intro h
    obtain ⟨attr, op, raw, hp⟩ := parseFilter_isSome (h fs (List.mem_cons_self _ _))
    obtain ⟨clauses, hok, hfa⟩ := ih (fun g hg => h g (List.mem_cons_of_mem _ hg))
    refine ⟨(attr ++ op ++ normalizeValue raw) :: clauses, ?_, ?_⟩
    · simp only [normalizeFiltersAux, hp, hok]
    · exact List.Forall₂.cons ⟨attr, op, raw, hp, rfl⟩ hfa

/-- C1: when every filter string contains a supported operator, `normalize`
succeeds and produces, in input order and joined by `";"`, one clause per
filter; each clause is built by choosing the first operator of the priority
list `==, !=, <=, >=, <, >, contains` occurring in the string, splitting at
that operator's leftmost occurrence, and rendering the stripped left part,
the operator and the normalized stripped right part with no surrounding
spaces. -/
theorem C1_normalize_priority_split (filters : List String)
    (h : ∀ fs ∈ filters, ∃ op ∈ supported_operators, op.data <:+: fs.data) :
    ∃ clauses, normalize filters = Except.ok (joinSemi clauses) ∧
      List.Forall₂ (fun fs clause =>
        ∃ op pre post ops1 ops2,
          supported_operators = ops1 ++ op :: ops2 ∧
          (∀ op2 ∈ ops1, ¬(op2.data <:+: fs.data)) ∧
          fs.data = pre ++ op.data ++ post ∧
          (∀ pre2 post2, fs.data = pre2 ++ op.data ++ post2 → pre.length ≤ pre2.length) ∧
          clause = (⟨pyStripL pre⟩ : String) ++ op ++ normalizeValue ⟨pyStripL post⟩)
        filters clauses := by
  obtain ⟨clauses, hok, hfa⟩ := normalizeFiltersAux_ok_of_good h
  refine ⟨clauses, by simp [normalize, hok], ?_⟩
  refine hfa.imp ?_
  rintro fs clause ⟨attr, op, raw, hp, hcl⟩
  obtain ⟨pre, post, ops1, ops2, hdec, hfail, hd, hmin, ha, hraw⟩ := parseFilter_some_spec hp
  exact ⟨op, pre, post, ops1, ops2, hdec, hfail, hd, hmin, by rw [hcl, ha, hraw]⟩

/-- Witness for C1 on the specification's example filter list. -/
theorem C1_witness :
    ∃ clauses,
      normalize ["consumption>0.5", "located_in==building1"]
        = Except.ok (joinSemi clauses) ∧
      List.Forall₂ (fun fs clause =>
        ∃ op pre post ops1 ops2,
          supported_operators = ops1 ++ op :: ops2 ∧
          (∀ op2 ∈ ops1, ¬(op2.data <:+: fs.data)) ∧
          fs.data = pre ++ op.data ++ post ∧
          (∀ pre2 post2, fs.data = pre2 ++ op.data ++ post2 → pre.length ≤ pre2.length) ∧
          clause = (⟨pyStripL pre⟩ : String) ++ op ++ normalizeValue ⟨pyStripL post⟩)
        ["consumption>0.5", "located_in==building1"] clauses :=
  C1_normalize_priority_split ["consumption>0.5", "located_in==building1"] (by decide)

/-! ### Claim C8: machinery — occurrences across concatenations -/

/-- String concatenation concatenates the character lists. -/
theorem str_data_append (s t : String) : (s ++ t).data = s.data ++ t.data := rfl

/-- Rebuilding a string from its characters is the identity. -/
theorem str_mk_data (s : String) : (⟨s.data⟩ : String) = s := rfl

/-- An occurrence inside a concatenation lies in the left part, in the
right part, or straddles the junction. -/
theorem infix_append_cases {s a b : List Char} (h : s <:+: (a ++ b)) :
    s <:+: a ∨ s <:+: b ∨
      ∃ s1 s2, s = s1 ++ s2 ∧ s1 ≠ [] ∧ s2 ≠ [] ∧ s1 <:+ a ∧ s2 <+: b := by
  obtain ⟨p, q, hpq⟩ := h
  by_cases h2 : a.length ≤ p.length
  · right; left
    have h3 := congrArg (List.drop a.length) hpq
    rw [List.drop_left] at h3
    rw [List.append_assoc, List.drop_append_eq_append_drop] at h3
    have h0 : a.length - p.length = 0 := by omega
    rw [h0, List.drop_zero] at h3
    exact ⟨p.drop a.length, q, by rw [← List.append_assoc] at h3; exact h3⟩
  · have hpa : p.length < a.length := by omega
    have hdrop : a.drop p.length ++ b = s ++ q := by
      have h3 := congrArg (List.drop p.length) hpq
      rw [List.append_assoc, List.drop_left] at h3
      rw [List.drop_append_eq_append_drop] at h3
      have h0 : p.length - a.length = 0 := by omega
      rw [h0, List.drop_zero] at h3
      exact h3.symm
    by_cases h1 : p.length + s.length ≤ a.length
    · left
      have hp' : a.take p.length = p := by
        have h3 := congrArg (List.take p.length) hpq
        rw [List.append_assoc, List.take_left] at h3
        rw [List.take_append_eq_append_take] at h3
        have h0 : p.length - a.length = 0 := by omega
        rw [h0, List.take_zero, List.append_nil] at h3
        exact h3.symm
      have hs' : (a.drop p.length).take s.length = s := by
        have h3 := congrArg (List.take s.length) hdrop
        rw [List.take_append_eq_append_take] at h3
        have h0 : s.length - (a.drop p.length).length = 0 := by
          rw [List.length_drop]; omega
        rw [h0, List.take_zero, List.append_nil, List.take_left] at h3
        exact h3
      refine ⟨p, (a.drop p.length).drop s.length, ?_⟩
      have hba : a.take p.length
          ++ ((a.drop p.length).take s.length ++ (a.drop p.length).drop s.length) = a := by
        rw [List.take_append_drop, List.take_append_drop]
      rw [hp', hs'] at hba
      rw [List.append_assoc]
      exact hba
    · right; right
      have hs1s2 : s = a.drop p.length ++ b.take (p.length + s.length - a.length) := by
        have h3 := congrArg (List.take s.length) hdrop
        rw [List.take_append_eq_append_take] at h3
        have hlen : (a.drop p.length).length ≤ s.length := by
          rw [List.length_drop]; omega
        rw [List.take_of_length_le hlen] at h3
        have harith : s.length - (a.drop p.length).length
            = p.length + s.length - a.length := by
          rw [List.length_drop]; omega
        rw [harith, List.take_left] at h3
        exact h3.symm
      refine ⟨a.drop p.length, b.take (p.length + s.length - a.length), hs1s2, ?_, ?_,
        List.drop_suffix _ _, List.take_prefix _ _⟩
      · intro hnil
        have := congrArg List.length hnil
        rw [List.length_drop] at this
        simp at this
        omega
      · intro hnil
        rw [hnil, List.append_nil] at hs1s2
        have := congrArg List.length hs1s2
        rw [List.length_drop] at this
        omega

/-- `splitFirst` on a single-character separator, when the separator does
not occur in the left part: split exactly there. -/
theorem splitFirst_single (ch : Char) :
    ∀ (a b : List Char), ch ∉ a → splitFirst [ch] (a ++ ch :: b) = some (a, b) := by
  intro a
  induction a with
  | nil =>
    intro b _
    have hpre : [ch].isPrefixOf (ch :: b) = true :=
      List.isPrefixOf_iff_prefix.mpr ⟨b, rfl⟩
    simp only [List.nil_append, splitFirst, hpre, if_true]
    rfl
  | cons x a' ih =>
    intro b hmem
    have hx : ¬([ch].isPrefixOf (x :: (a' ++ ch :: b)) = true) := by
      intro hp
      obtain ⟨t, ht⟩ := List.isPrefixOf_iff_prefix.mp hp
      have : ch = x := by
        have := congrArg (fun l => l.head?) ht
        simpa using this
      exact hmem (by rw [this]; exact List.mem_cons_self _ _)
    have hch : ch ∉ a' := fun hc => hmem (List.mem_cons_of_mem _ hc)
    simp only [List.cons_append, splitFirst, List.append_eq, if_neg hx, ih b hch]

/-- `splitFirst` finds nothing when the single-character separator is
absent. -/
theorem splitFirst_single_none {ch : Char} {l : List Char} (h : ch ∉ l) :
    splitFirst [ch] l = none := by
  cases hs : splitFirst [ch] l with
  | none => rfl
  | some pr =>
    obtain ⟨pre, post⟩ := pr
    obtain ⟨hdec, _⟩ := splitFirst_some hs
    exact absurd (by rw [hdec]; simp : ch ∈ l) h

/-- Splitting a semicolon-join of semicolon-free pieces recovers the
pieces. -/
theorem pySplitF_join :
    ∀ (n : Nat) (c : String) (cs : List String),
      (∀ x ∈ c :: cs, (';' : Char) ∉ x.data) →
      (joinSemi (c :: cs)).data.length < n →
      pySplitF [';'] n (joinSemi (c :: cs)).data = (c :: cs).map String.data := by
  intro n
  induction n with
  | zero => intro c cs _ hlen; omega
  | succ n ih =>
    intro c cs hfree hlen
    cases cs with
    | nil =>
      have hnone : splitFirst [';'] (joinSemi [c]).data = none :=
        splitFirst_single_none (hfree c (List.mem_cons_self _ _))
      simp only [pySplitF, hnone]
      rfl
    | cons c2 cs' =>
      have hjoin : (joinSemi (c :: c2 :: cs')).data
          = c.data ++ ';' :: (joinSemi (c2 :: cs')).data := by
        show (c ++ ";" ++ joinSemi (c2 :: cs')).data = _
        rw [str_data_append, str_data_append, List.append_assoc]
        rfl
      have hsplit : splitFirst [';'] (joinSemi (c :: c2 :: cs')).data
          = some (c.data, (joinSemi (c2 :: cs')).data) := by
        rw [hjoin]
        exact splitFirst_single ';' _ _ (hfree c (List.mem_cons_self _ _))
      have hlen2 : (joinSemi (c2 :: cs')).data.length < n := by
        have := congrArg List.length hjoin
        simp only [List.length_append, List.length_cons] at this
        omega
      simp only [pySplitF, hsplit]
      rw [ih c2 cs' (fun x hx => hfree x (List.mem_cons_of_mem _ hx)) hlen2]
      rfl

/-- String-level split/join inverse. -/
theorem pySplitOn_joinSemi (c : String) (cs : List String)
    (hfree : ∀ x ∈ c :: cs, (';' : Char) ∉ x.data) :
    pySplitOn ";" (joinSemi (c :: cs)) = c :: cs := by
  rw [pySplitOn]
  have hsep : (";" : String).data = [';'] := rfl
  rw [hsep]
  rw [pySplitF_join ((joinSemi (c :: cs)).data.length + 1) c cs hfree (by omega)]
  rw [List.map_map]
  have hid : ((fun l => (⟨l⟩ : String)) ∘ String.data) = id := by
    funext x
    rfl
  rw [hid]
  exact List.map_id _

/-! ### Claim C8: simple characters and concrete operator facts -/

/-- Identifier-like characters: alphanumerics and `.`, `_`, `:`, `-`, `+`.
No operator fragment, quote, semicolon or whitespace is simple. -/
def simpleChar (c : Char) : Bool :=
  c.isAlphanum || c == '.' || c == '_' || c == ':' || c == '-' || c == '+'

/-- Simple characters are not whitespace. -/
theorem simpleChar_not_space {c : Char} (h : simpleChar c = true) : isPySpace c = false := by
  cases hsp : isPySpace c with
  | false => rfl
  | true =>
    exfalso
    simp only [isPySpace, Bool.or_eq_true, beq_iff_eq] at hsp
    rcases hsp with ((((h1 | h1) | h1) | h1) | h1) | h1 <;> subst h1 <;>
      exact absurd h (by decide)

/-- A parsed filter whose attribute and raw value are made of simple
characters only (the inputs covered by the idempotence property). -/
def simpleParsed (fs : String) : Bool :=
  match parseFilter fs with
  | some (attr, _, raw) => attr.data.all simpleChar && raw.data.all simpleChar
  | none => false

/-- No supported operator is empty. -/
theorem fact_ops_nonempty : ∀ op ∈ supported_operators, op.data ≠ [] := by decide

/-- Every supported operator has at most 8 characters. -/
theorem fact_ops_len : ∀ op ∈ supported_operators, op.data.length ≤ 8 := by decide

/-- No supported operator contains a semicolon. -/
theorem fact_ops_nosemi : ∀ op ∈ supported_operators, (';' : Char) ∉ op.data := by decide

/-- No supported operator contains a double quote. -/
theorem fact_ops_noquote : ∀ op ∈ supported_operators, ('"' : Char) ∉ op.data := by decide

/-- Apart from `contains`, operators consist of non-simple characters. -/
theorem fact_ops_chars :
    ∀ op ∈ supported_operators, op = "contains" ∨ ∀ c ∈ op.data, simpleChar c = false := by
  decide

/-- The characters of `contains` are all simple. -/
theorem fact_contains_simple : ∀ c ∈ ("contains" : String).data, simpleChar c = true := by
  decide

/-- `contains` has no non-trivial border: no proper non-empty suffix equals
the prefix of the same length. -/
theorem fact_contains_border :
    ∀ k, k < 8 → 0 < k →
      ("contains" : String).data.drop k ≠ ("contains" : String).data.take (8 - k) := by
  decide

/-- A supported operator overlapping itself with a shift forces a
non-simple character into the overlap (only `==` overlaps itself, and its
overlap is `=`). -/
theorem fact_op_overlap :
    ∀ op ∈ supported_operators, ∀ k, k < 9 → 0 < k → k < op.data.length →
      op.data.drop k = op.data.take (op.data.length - k) →
      ∃ c ∈ op.data.take k, simpleChar c = false := by
  decide

/-- No supported operator occurs strictly inside another (with characters
on both sides). -/
theorem fact_no_inner_op :
    ∀ op2 ∈ supported_operators, ∀ op ∈ supported_operators, ∀ j, j < 9 → 0 < j →
      j + op.data.length < op2.data.length →
      (op2.data.drop j).take op.data.length ≠ op.data := by
  decide

/-- A junction occurrence of one operator across a simple left part and
another operator forces a non-simple character into the left fragment. -/
theorem fact_straddle :
    ∀ op2 ∈ supported_operators, ∀ op ∈ supported_operators, ∀ k, k < 9 → 0 < k →
      k ≤ op.data.length → k < op2.data.length →
      op2.data.drop (op2.data.length - k) = op.data.take k →
      ∃ c ∈ op2.data.take (op2.data.length - k), simpleChar c = false := by
  decide

/-- C8 as stated is false: a raw value containing `;` yields a normalized
query whose split on `;` cuts through the quoted value, and the second pass
fails instead of reproducing the query. -/
theorem C8_counterexample :
    normalize ["x==a;b"] = Except.ok "x==\"a;b\"" ∧
    pySplitOn ";" "x==\"a;b\"" = ["x==\"a", "b\""] ∧
    normalize (pySplitOn ";" "x==\"a;b\"")
      = Except.error (ReadError.invalidFilter "b\"") :=
  ⟨by decide, by decide, by decide⟩

/-- A normalized value is either the raw value (numeric or pre-quoted) or
the raw value wrapped in double quotes. -/
theorem normalizeValue_cases (raw : String) :
    (normalizeValue raw = raw ∧ (is_number raw || is_quoted raw) = true) ∨
    (normalizeValue raw).data = '"' :: (raw.data ++ ['"']) := by
  by_cases h : (is_number raw || is_quoted raw) = true
  · left
    exact ⟨by simp [normalizeValue, h], h⟩
  · right
    rw [normalizeValue, if_neg h]
    rfl

/-- Normalizing a value twice equals normalizing it once. -/
theorem normalizeValue_idem (raw : String) :
    normalizeValue (normalizeValue raw) = normalizeValue raw := by
  rcases normalizeValue_cases raw with ⟨heq, _⟩ | hwrap
  · rw [heq]; exact heq
  · have hq : is_quoted (normalizeValue raw) = true := by
      rw [is_quoted, hwrap]
      simp [List.getLast?_concat, isQuoteChar]
    rw [normalizeValue, if_pos (by simp [hq])]

/-- A quote-free, non-empty occurrence inside a quote-wrapped string lies
inside the wrapped content. -/
theorem infix_unwrap {w x : List Char} (hne : w ≠ []) (hq : ('"' : Char) ∉ w)
    (h : w <:+: ('"' :: (x ++ ['"']))) : w <:+: x := by
  have hquote : ∀ {m : List Char}, w <:+: m → (∀ c ∈ m, c = '"') → False := by
    intro m hm hall
    cases w with
    | nil => exact hne rfl
    | cons c w' =>
      have : c ∈ m := hm.sublist.subset (List.mem_cons_self _ _)
      exact hq (by rw [← hall c this]; exact List.mem_cons_self _ _)
  have hsubq : ∀ {s1 : List Char}, s1 ≠ [] → (∀ c ∈ s1, c = '"') →
      (∃ s2, w = s1 ++ s2) ∨ (∃ s2, w = s2 ++ s1) → False := by
    rintro s1 h1ne hall (⟨s2, hw⟩ | ⟨s2, hw⟩)
    · cases s1 with
      | nil => exact h1ne rfl
      | cons c s1' =>
        exact hq (by rw [hw, hall c (List.mem_cons_self _ _)]; simp)
    · cases s1 with
      | nil => exact h1ne rfl
      | cons c s1' =>
        refine hq ?_
        rw [hw, hall c (List.mem_cons_self _ _)]
        simp
  have h' : w <:+: (['"'] ++ (x ++ ['"'])) := by simpa using h
  rcases infix_append_cases h' with h1 | h1 | ⟨s1, s2, hsp, hs1ne, hs2ne, hs1, hs2⟩
  · exact absurd h1 (fun hm => hquote hm (by intro c hc; simpa using hc))
  · rcases infix_append_cases h1 with h2 | h2 | ⟨s1, s2, hsp, hs1ne, hs2ne, hs1, hs2⟩
    · exact h2
    · exact absurd h2 (fun hm => hquote hm (by intro c hc; simpa using hc))
    · exfalso
      refine hsubq hs2ne ?_ (Or.inr ⟨s1, hsp⟩)
      intro c hc
      have := hs2.sublist.subset hc
      simpa using this
  · exfalso
    refine hsubq hs1ne ?_ (Or.inl ⟨s2, hsp⟩)
    intro c hc
    have := hs1.sublist.subset hc
    simpa using this

/-- The operator found by the scan does not occur in the pre-operator part
(it was the leftmost occurrence). -/
theorem op_not_infix_pre {fs op : String} {pre post : List Char}
    (hop : op.data ≠ [])
    (hd : fs.data = pre ++ op.data ++ post)
    (hmin : ∀ pre2 post2, fs.data = pre2 ++ op.data ++ post2 → pre.length ≤ pre2.length) :
    ¬(op.data <:+: pre) := by
  rintro ⟨u, w, huw⟩
  have hd2 : fs.data = u ++ op.data ++ (w ++ op.data ++ post) := by
    rw [hd, ← huw]
    simp [List.append_assoc]
  have hle := hmin u _ hd2
  have hlen := congrArg List.length huw
  simp only [List.length_append] at hlen
  have hpos : 0 < op.data.length := List.length_pos.mpr hop
  omega

/-- `find?` on a decomposed list whose prefix fails the predicate. -/
theorem find?_of_decomp {α : Type} {p : α → Bool} {a : α} :
    ∀ {l1 : List α} (l2 : List α), (∀ b ∈ l1, p b = false) → p a = true →
      (l1 ++ a :: l2).find? p = some a := by
  intro l1
  induction l1 with
  | nil => intro l2 _ h2; simpa using List.find?_cons_of_pos _ h2
  | cons x l1' ih =>
    intro l2 h1 h2
    have hx : p x = false := h1 x (List.mem_cons_self _ _)
    rw [List.cons_append, List.find?_cons_of_neg _ (by simp [hx])]
    exact ih l2 (fun b hb => h1 b (List.mem_cons_of_mem _ hb)) h2

/-- Re-splitting a rendered clause at its operator recovers attribute and
value: the leftmost occurrence of the operator in
`attr ++ op ++ value` is the explicit one, since the attribute is
operator-free and simple. -/
theorem splitFirst_clause {attr op vp : String}
    (hopmem : op ∈ supported_operators)
    (hattr : ∀ c ∈ attr.data, simpleChar c = true)
    (hnotin : ¬(op.data <:+: attr.data)) :
    splitFirst op.data (attr.data ++ op.data ++ vp.data) = some (attr.data, vp.data) := by
  have hsome : (splitFirst op.data (attr.data ++ op.data ++ vp.data)).isSome = true :=
    splitFirst_isSome _ _ _
  cases hs : splitFirst op.data (attr.data ++ op.data ++ vp.data) with
  | none => rw [hs] at hsome; simp at hsome
  | some pr =>
    obtain ⟨a0, b0⟩ := pr
    obtain ⟨hdec, hmin⟩ := splitFirst_some hs
    have hle : a0.length ≤ attr.data.length := hmin attr.data vp.data rfl
    have hge : attr.data.length ≤ a0.length := by
      by_contra hlt
      push_neg at hlt
      have h1 : a0 = attr.data.take a0.length := by
        have e1 : (attr.data ++ op.data ++ vp.data).take a0.length = a0 := by
          rw [hdec, List.append_assoc, List.take_left]
        have e2 : (attr.data ++ op.data ++ vp.data).take a0.length
            = attr.data.take a0.length := by
          rw [List.append_assoc, List.take_append_eq_append_take]
          have h0 : a0.length - attr.data.length = 0 := by omega
          rw [h0, List.take_zero, List.append_nil]
        rw [← e2]
        exact e1.symm
      have hattr_split : attr.data = a0 ++ attr.data.drop a0.length := by
        conv_lhs => rw [← List.take_append_drop a0.length attr.data]
        rw [← h1]
      set t := attr.data.drop a0.length with ht_def
      have htne : t ≠ [] := by
        intro hnil
        have hlen0 := congrArg List.length hnil
        rw [ht_def, List.length_drop] at hlen0
        simp only [List.length_nil] at hlen0
        omega
      have hkey : t ++ (op.data ++ vp.data) = op.data ++ b0 := by
        have e3 : a0 ++ (t ++ (op.data ++ vp.data)) = a0 ++ (op.data ++ b0) := by
          have e4 : attr.data ++ op.data ++ vp.data = a0 ++ op.data ++ b0 := hdec
          calc a0 ++ (t ++ (op.data ++ vp.data))
              = (a0 ++ t) ++ op.data ++ vp.data := by simp [List.append_assoc]
            _ = attr.data ++ op.data ++ vp.data := by rw [← hattr_split]
            _ = a0 ++ op.data ++ b0 := e4
            _ = a0 ++ (op.data ++ b0) := by simp [List.append_assoc]
        exact List.append_cancel_left e3
      by_cases hts : op.data.length ≤ t.length
      · have hpre : op.data = t.take op.data.length := by
          have e5 := congrArg (List.take op.data.length) hkey
          rw [List.take_append_eq_append_take] at e5
          have h0 : op.data.length - t.length = 0 := by omega
          rw [h0, List.take_zero, List.append_nil, List.take_left] at e5
          exact e5.symm
        apply hnotin
        have h2 : t <:+ attr.data := hattr_split ▸ ⟨a0, rfl⟩
        have h3 : op.data <+: t := List.prefix_iff_eq_take.mpr (by rw [← hpre])
        exact h3.isInfix.trans h2.isInfix
      · push_neg at hts
        have htlen : 0 < t.length := List.length_pos.mpr htne
        have ht1 : t = op.data.take t.length := by
          have e5 := congrArg (List.take t.length) hkey
          rw [List.take_left, List.take_append_eq_append_take] at e5
          have h0 : t.length - op.data.length = 0 := by omega
          rw [h0, List.take_zero, List.append_nil] at e5
          exact e5
        have ht2 : op.data.drop t.length = op.data.take (op.data.length - t.length) := by
          have e5 := congrArg (List.drop t.length) hkey
          rw [List.drop_left, List.drop_append_eq_append_drop] at e5
          have h0 : t.length - op.data.length = 0 := by omega
          rw [h0, List.drop_zero] at e5
          have hdlen : (op.data.drop t.length).length = op.data.length - t.length :=
            List.length_drop _ _
          have e6 := congrArg (List.take (op.data.length - t.length)) e5
          rw [List.take_append_eq_append_take, List.take_append_eq_append_take] at e6
          have hz1 : op.data.length - t.length - op.data.length = 0 := by omega
          have hz2 : op.data.length - t.length - (op.data.drop t.length).length = 0 := by
            rw [hdlen]; omega
          simp only [hz1, hz2, List.take_zero, List.append_nil] at e6
          rw [List.take_of_length_le (le_of_eq hdlen)] at e6
          exact e6.symm
        obtain ⟨c, hc1, hc2⟩ := fact_op_overlap op hopmem t.length
          (by have := fact_ops_len op hopmem; omega) htlen hts ht2
        rw [← ht1] at hc1
        have hcattr : c ∈ attr.data := by
          rw [hattr_split]
          exact List.mem_append_right a0 hc1
        exact absurd (hattr c hcattr) (by simp [hc2])
    have hlen : a0.length = attr.data.length := Nat.le_antisymm hle hge
    have ha0 : a0 = attr.data := by
      have e1 : attr.data ++ (op.data ++ vp.data) = a0 ++ (op.data ++ b0) := by
        have := hdec
        simpa [List.append_assoc] using this
      exact (List.append_inj_left e1 hlen.symm).symm
    subst ha0
    have hb0 : b0 = vp.data := by
      have e1 : attr.data ++ (op.data ++ vp.data) = attr.data ++ (op.data ++ b0) := by
        have := hdec
        simpa [List.append_assoc] using this
      have e2 := List.append_cancel_left e1
      exact (List.append_cancel_left e2).symm
    rw [hb0]

/-- Every supported operator occurring in a rendered clause already
occurred in the original filter string: rendering (stripping, quoting,
concatenation) creates no new operator occurrences when attribute and raw
value are simple. -/
theorem infix_clause_transfer {fs attr op raw op2 : String}
    (hop2 : op2 ∈ supported_operators)
    (hopmem : op ∈ supported_operators)
    (hamem : attr.data <:+: fs.data)
    (hopinf : op.data <:+: fs.data)
    (hrawinf : raw.data <:+: fs.data)
    (hattr : ∀ c ∈ attr.data, simpleChar c = true)
    (hraw : ∀ c ∈ raw.data, simpleChar c = true)
    (hinf : op2.data <:+: (attr.data ++ (op.data ++ (normalizeValue raw).data))) :
    op2.data <:+: fs.data := by
  have hop2ne := fact_ops_nonempty op2 hop2
  rcases infix_append_cases hinf with hA | hBC | ⟨s1, s2, hsp, hs1ne, hs2ne, hs1, hs2⟩
  · exact hA.trans hamem
  · rcases infix_append_cases hBC with hB | hC | ⟨s1, s2, hsp, hs1ne, hs2ne, hs1, hs2⟩
    · exact hB.trans hopinf
    · rcases normalizeValue_cases raw with ⟨heq, _⟩ | hwrap
      · rw [heq] at hC
        exact hC.trans hrawinf
      · rw [hwrap] at hC
        exact (infix_unwrap hop2ne (fact_ops_noquote op2 hop2) hC).trans hrawinf
    · exfalso
      obtain ⟨c, s2', rfl⟩ : ∃ c s2', s2 = c :: s2' := by
        cases s2 with
        | nil => exact absurd rfl hs2ne
        | cons c s2' => exact ⟨c, s2', rfl⟩
      have hc_op2 : c ∈ op2.data := by
        rw [hsp]; exact List.mem_append_right s1 (List.mem_cons_self _ _)
      obtain ⟨t2, ht2⟩ := hs2
      rcases normalizeValue_cases raw with ⟨heq, _⟩ | hwrap
      · have hcraw : c ∈ raw.data := by
          rw [heq] at ht2
          rw [← ht2]
          simp
        have hcs : simpleChar c = true := hraw c hcraw
        rcases fact_ops_chars op2 hop2 with hcont | hnons
        · rcases fact_ops_chars op hopmem with hcont2 | hnons2
          · subst hcont; subst hcont2
            have h1 : s1 <+: ("contains" : String).data := ⟨c :: s2', hsp.symm⟩
            have h2 : s1 = ("contains" : String).data.take s1.length :=
              List.prefix_iff_eq_take.mp h1
            have h3 := List.suffix_iff_eq_drop.mp hs1
            have hlen8 : ("contains" : String).data.length = 8 := by decide
            have hs1len : s1.length < 8 := by
              have hl := congrArg List.length hsp
              rw [List.length_append, hlen8, List.length_cons] at hl
              omega
            have hs1pos : 0 < s1.length := List.length_pos.mpr hs1ne
            have h3' : s1 = ("contains" : String).data.drop (8 - s1.length) := by
              rw [hlen8] at h3
              exact h3
            have harg : ("contains" : String).data.drop (8 - s1.length)
                = ("contains" : String).data.take (8 - (8 - s1.length)) := by
              rw [show 8 - (8 - s1.length) = s1.length from by omega]
              exact h3'.symm.trans h2
            exact fact_contains_border (8 - s1.length) (by omega) (by omega) harg
          · subst hcont
            obtain ⟨c1, s1', rfl⟩ : ∃ c1 s1', s1 = c1 :: s1' := by
              cases s1 with
              | nil => exact absurd rfl hs1ne
              | cons c1 s1' => exact ⟨c1, s1', rfl⟩
            have hc1op : c1 ∈ op.data := hs1.sublist.subset (List.mem_cons_self _ _)
            have hc1op2 : c1 ∈ ("contains" : String).data := by
              rw [hsp]; exact List.mem_append_left _ (List.mem_cons_self _ _)
            exact absurd (fact_contains_simple c1 hc1op2) (by simp [hnons2 c1 hc1op])
        · exact absurd hcs (by simp [hnons c hc_op2])
      · have hch : c = '"' := by
          rw [hwrap] at ht2
          have := congrArg List.head? ht2
          simpa using this
        exact fact_ops_noquote op2 hop2 (by rw [← hch]; exact hc_op2)
  · exfalso
    rcases fact_ops_chars op2 hop2 with hcont | hnons
    · subst hcont
      have hlen8 : ("contains" : String).data.length = 8 := by decide
      have hs2eq : s2 = ("contains" : String).data.drop s1.length := by
        rw [hsp]; exact (List.drop_left _ _).symm
      have hs2pre := List.prefix_iff_eq_take.mp hs2
      have hlensum : s1.length + s2.length = 8 := by
        have hl := congrArg List.length hsp
        rw [List.length_append, hlen8] at hl
        omega
      have hs1pos : 0 < s1.length := List.length_pos.mpr hs1ne
      have hs2pos : 0 < s2.length := List.length_pos.mpr hs2ne
      by_cases hle : s2.length ≤ op.data.length
      · have hs2op : s2 = op.data.take s2.length := by
          have h0 : s2.length - op.data.length = 0 := by omega
          conv_lhs => rw [hs2pre]
          rw [List.take_append_eq_append_take, h0, List.take_zero, List.append_nil]
        rcases fact_ops_chars op hopmem with hcont2 | hnons2
        · subst hcont2
          have harg : ("contains" : String).data.drop s1.length
              = ("contains" : String).data.take (8 - s1.length) := by
            have h8 : 8 - s1.length = s2.length := by omega
            rw [h8, ← hs2eq]
            exact hs2op
          exact fact_contains_border s1.length (by omega) (by omega) harg
        · obtain ⟨c2, s2', rfl⟩ : ∃ c2 s2', s2 = c2 :: s2' := by
            cases s2 with
            | nil => exact absurd rfl hs2ne
            | cons c2 s2' => exact ⟨c2, s2', rfl⟩
          have hc2op : c2 ∈ op.data := by
            have hmem2 : c2 ∈ op.data.take (c2 :: s2').length := by
              rw [← hs2op]; exact List.mem_cons_self _ _
            exact (List.take_prefix _ _).sublist.subset hmem2
          have hc2op2 : c2 ∈ ("contains" : String).data := by
            rw [hsp]; exact List.mem_append_right s1 (List.mem_cons_self _ _)
          exact absurd (fact_contains_simple c2 hc2op2) (by simp [hnons2 c2 hc2op])
      · push_neg at hle
        have hs2op : s2 = op.data
            ++ (normalizeValue raw).data.take (s2.length - op.data.length) := by
          conv_lhs => rw [hs2pre]
          rw [List.take_append_eq_append_take,
            List.take_of_length_le (by omega : op.data.length ≤ s2.length)]
        have hs2lenle : s2.length ≤ op.data.length + (normalizeValue raw).data.length := by
          have := hs2.length_le
          simpa [List.length_append] using this
        have ht2ne : (normalizeValue raw).data.take (s2.length - op.data.length) ≠ [] := by
          intro hnil
          have hl := congrArg List.length hnil
          rw [List.length_take] at hl
          simp only [List.length_nil] at hl
          rcases Nat.min_eq_zero_iff.mp hl with h | h <;> omega
        have hdecomp : ("contains" : String).data = s1 ++ op.data
            ++ (normalizeValue raw).data.take (s2.length - op.data.length) := by
          rw [hsp, hs2op]
          simp [List.append_assoc]
        have hcomp : (("contains" : String).data.drop s1.length).take op.data.length
            = op.data := by
          rw [hdecomp, List.append_assoc, List.drop_left, List.take_left]
        have ht2pos : 0 < ((normalizeValue raw).data.take
            (s2.length - op.data.length)).length := List.length_pos.mpr ht2ne
        have hlenlt : s1.length + op.data.length < ("contains" : String).data.length := by
          have hl := congrArg List.length hdecomp
          rw [List.length_append, List.length_append] at hl
          omega
        exact absurd hcomp
          (fact_no_inner_op "contains" hop2 op hopmem s1.length
            (by omega) hs1pos hlenlt)
    · obtain ⟨c1, s1', rfl⟩ : ∃ c1 s1', s1 = c1 :: s1' := by
        cases s1 with
        | nil => exact absurd rfl hs1ne
        | cons c1 s1' => exact ⟨c1, s1', rfl⟩
      have hc1attr : c1 ∈ attr.data := hs1.sublist.subset (List.mem_cons_self _ _)
      have hc1op2 : c1 ∈ op2.data := by
        rw [hsp]; exact List.mem_append_left _ (List.mem_cons_self _ _)
      exact absurd (hattr c1 hc1attr) (by simp [hnons c1 hc1op2])

/-- A rendered clause with simple attribute and raw value re-parses to the
same attribute, operator and (already normalized) value, contains no
semicolon, and its value is a fixed point of value normalization. -/
theorem reparse_clause {fs attr op raw : String}
    (hp : parseFilter fs = some (attr, op, raw))
    (hattr : ∀ c ∈ attr.data, simpleChar c = true)
    (hraw : ∀ c ∈ raw.data, simpleChar c = true) :
    ((';' : Char) ∉ (attr ++ op ++ normalizeValue raw).data) ∧
    parseFilter (attr ++ op ++ normalizeValue raw)
      = some (attr, op, normalizeValue raw) ∧
    normalizeValue (normalizeValue raw) = normalizeValue raw := by
  obtain ⟨pre, post, ops1, ops2, hdec, hfail, hd, hmin, ha, hrw⟩ := parseFilter_some_spec hp
  have hopmem : op ∈ supported_operators := by
    rw [hdec]; exact List.mem_append_right _ (List.mem_cons_self _ _)
  have hopne := fact_ops_nonempty op hopmem
  have hamem : attr.data <:+: fs.data := by
    have h1 : attr.data <:+: pre := by rw [ha]; exact pyStripL_infix pre
    exact h1.trans ⟨[], op.data ++ post, by simp [hd, List.append_assoc]⟩
  have hopinf : op.data <:+: fs.data := ⟨pre, post, by rw [hd]⟩
  have hrawinf : raw.data <:+: fs.data := by
    have h1 : raw.data <:+: post := by rw [hrw]; exact pyStripL_infix post
    exact h1.trans ⟨pre ++ op.data, [], by simp [hd, List.append_assoc]⟩
  have hopnotattr : ¬(op.data <:+: attr.data) := by
    intro hin
    apply op_not_infix_pre hopne hd hmin
    have h1 : attr.data <:+: pre := by rw [ha]; exact pyStripL_infix pre
    exact hin.trans h1
  have hclause : (attr ++ op ++ normalizeValue raw).data
      = attr.data ++ (op.data ++ (normalizeValue raw).data) := by
    rw [str_data_append, str_data_append, List.append_assoc]
  have hvchars : ∀ c ∈ (normalizeValue raw).data, simpleChar c = true ∨ c = '"' := by
    rcases normalizeValue_cases raw with ⟨heq, _⟩ | hwrap
    · intro c hc; rw [heq] at hc; exact Or.inl (hraw c hc)
    · intro c hc
      rw [hwrap] at hc
      rcases List.mem_cons.mp hc with h1 | h1
      · exact Or.inr h1
      · rcases List.mem_append.mp h1 with h2 | h2
        · exact Or.inl (hraw c h2)
        · exact Or.inr (by simpa using h2)
  have hsemi : (';' : Char) ∉ (attr ++ op ++ normalizeValue raw).data := by
    rw [hclause]
    intro hc
    rcases List.mem_append.mp hc with h1 | h1
    · exact absurd (hattr _ h1) (by decide)
    · rcases List.mem_append.mp h1 with h2 | h2
      · exact fact_ops_nosemi op hopmem h2
      · rcases hvchars _ h2 with h3 | h3
        · exact absurd h3 (by decide)
        · exact absurd h3 (by decide)
  have hfind : supported_operators.find?
      (fun o => (splitFirst o.data (attr ++ op ++ normalizeValue raw).data).isSome)
      = some op := by
    rw [hdec]
    apply find?_of_decomp
    · intro b hb
      cases hbs : (splitFirst b.data (attr ++ op ++ normalizeValue raw).data).isSome with
      | false => rfl
      | true =>
        exfalso
        have hbinf : b.data <:+: (attr ++ op ++ normalizeValue raw).data :=
          splitFirst_isSome_iff.mp hbs
        rw [hclause] at hbinf
        have hbmem : b ∈ supported_operators := by
          rw [hdec]; exact List.mem_append_left _ hb
        exact hfail b hb
          (infix_clause_transfer hbmem hopmem hamem hopinf hrawinf hattr hraw hbinf)
    · apply splitFirst_isSome_iff.mpr
      rw [hclause]
      exact ⟨attr.data, (normalizeValue raw).data, by simp [List.append_assoc]⟩
  have hsplit : splitFirst op.data (attr ++ op ++ normalizeValue raw).data
      = some (attr.data, (normalizeValue raw).data) := by
    rw [hclause, ← List.append_assoc]
    exact splitFirst_clause hopmem hattr hopnotattr
  have hstripattr : pyStripL attr.data = attr.data :=
    pyStripL_eq_self (fun c hc => simpleChar_not_space (hattr c hc))
  have hstripv : pyStripL (normalizeValue raw).data = (normalizeValue raw).data := by
    apply pyStripL_eq_self
    intro c hc
    rcases hvchars c hc with h1 | h1
    · exact simpleChar_not_space h1
    · rw [h1]; decide
  refine ⟨hsemi, ?_, normalizeValue_idem raw⟩
  simp only [parseFilter, hfind, hsplit, hstripattr, hstripv]

/-- Unpacking `simpleParsed`. -/
theorem simpleParsed_spec {fs : String} (h : simpleParsed fs = true) :
    ∃ attr op raw, parseFilter fs = some (attr, op, raw) ∧
      (∀ c ∈ attr.data, simpleChar c = true) ∧
      (∀ c ∈ raw.data, simpleChar c = true) := by
  rw [simpleParsed] at h
  cases hp : parseFilter fs with
  | none => rw [hp] at h; cases h
  | some tr =>
    obtain ⟨attr, op, raw⟩ := tr
    rw [hp] at h
    have h2 : (attr.data.all simpleChar && raw.data.all simpleChar) = true := h
    simp only [Bool.and_eq_true, List.all_eq_true] at h2
    exact ⟨attr, op, raw, rfl, h2.1, h2.2⟩

/-- On simple filters, the normalization loop succeeds and every produced
clause is semicolon-free and re-parses to itself. -/
theorem aux_ok_simple :
    ∀ {l : List String}, (∀ fs ∈ l, simpleParsed fs = true) →
      ∃ clauses, normalizeFiltersAux l = Except.ok clauses ∧
        clauses.length = l.length ∧
        ∀ cl ∈ clauses, ((';' : Char) ∉ cl.data) ∧
          ∃ a o v, parseFilter cl = some (a, o, v) ∧ a ++ o ++ normalizeValue v = cl := by
  intro l
  induction l with
  | nil => intro _; exact ⟨[], rfl, rfl, by simp⟩
  | cons fs rest ih =>
    intro h
    obtain ⟨attr, op, raw, hp, hattr, hraw⟩ :=
      simpleParsed_spec (h fs (List.mem_cons_self _ _))
    obtain ⟨hsemi, hreparse, hidem⟩ := reparse_clause hp hattr hraw
    obtain ⟨clauses, hok, hlen, hprop⟩ := ih (fun g hg => h g (List.mem_cons_of_mem _ hg))
    refine ⟨(attr ++ op ++ normalizeValue raw) :: clauses, ?_, by simp [hlen], ?_⟩
    · simp only [normalizeFiltersAux, hp, hok]
    · intro cl hcl
      rcases List.mem_cons.mp hcl with h1 | h1
      · subst h1
        refine ⟨hsemi, attr, op, normalizeValue raw, hreparse, ?_⟩
        rw [hidem]
      · exact hprop cl h1

/-- A list of self-normalizing clauses is a fixed point of the
normalization loop. -/
theorem aux_fixed :
    ∀ {l : List String},
      (∀ cl ∈ l, ∃ a o v, parseFilter cl = some (a, o, v) ∧
        a ++ o ++ normalizeValue v = cl) →
      normalizeFiltersAux l = Except.ok l := by
  intro l
  induction l with
  | nil => intro _; rfl
  | cons cl rest ih =>
    intro h
    obtain ⟨a, o, v, hp, heq⟩ := h cl (List.mem_cons_self _ _)
    have hrest := ih (fun g hg => h g (List.mem_cons_of_mem _ hg))
    simp only [normalizeFiltersAux, hp, hrest, heq]

/-- C8 (amended): on every non-empty filter list whose parsed attributes
and raw values consist of identifier-like (simple) characters only,
`normalize` succeeds and is idempotent: splitting its output on `";"` and
normalizing again returns the identical string. (As stated the claim fails:
values containing `";"`, or junctions that re-form an operator fragment,
change the second pass.) -/
theorem C8_idempotent_simple (filters : List String)
    (hne : filters ≠ [])
    (hsimple : ∀ fs ∈ filters, simpleParsed fs = true) :
    ∃ q, normalize filters = Except.ok q ∧
      normalize (pySplitOn ";" q) = Except.ok q := by
  obtain ⟨clauses, hok, hlen, hprop⟩ := aux_ok_simple hsimple
  have hclne : clauses ≠ [] := by
    intro h0
    rw [h0] at hlen
    cases filters with
    | nil => exact hne rfl
    | cons a b => simp at hlen
  obtain ⟨c0, cs, rfl⟩ : ∃ c0 cs, clauses = c0 :: cs := by
    cases clauses with
    | nil => exact absurd rfl hclne
    | cons c0 cs => exact ⟨c0, cs, rfl⟩
  refine ⟨joinSemi (c0 :: cs), by simp [normalize, hok], ?_⟩
  rw [pySplitOn_joinSemi c0 cs (fun x hx => (hprop x hx).1)]
  have hfix := aux_fixed (fun cl hcl => (hprop cl hcl).2)
  simp [normalize, hfix]

/-- Witness for the amended C8 on the specification's example filters. -/
theorem C8_witness :
    ∃ q, normalize ["consumption>0.5", "located_in==building1"] = Except.ok q ∧
      normalize (pySplitOn ";" q) = Except.ok q :=
  C8_idempotent_simple ["consumption>0.5", "located_in==building1"]
    (by decide) (by decide)

end MCPServer
